import Mathlib

/-!
# godis: RESP codec, command handlers and append-only log

A shallow embedding of `resp.go`, `handler.go`, `aof.go` and the request loop of
`main.go`, followed by theorems about it.

Conventions of the embedding:

* A Go `string` / `[]byte` is a list of bytes (`Bytes`); a byte is a natural number
  (every byte the code produces or compares against is below 256).
* A Go `int` is an `Int`; the platform is taken to be 64-bit, so `int(i64)` is the
  identity on the results of `strconv.ParseInt(_, 10, 64)`.
* A computation that can return a Go `error`, or abort with a runtime panic, returns
  a `Res`: `ok`, `err`, `panic`. The fourth outcome `outOfFuel` belongs to the model
  only (a recursion bound was reached); the entry points supply enough fuel
  (`readLine_total`, `Read_total`, `replay_total`, `handleConnection_total`).
* `make` panics on a negative length and on a length beyond the limit of the allocator
  (`makeslice`); any other allocation is taken to succeed.
* The process-wide maps `SETs` and `HSETs` are threaded explicitly as a `Store`.
  The mutexes only serialise whole map operations and have no sequential meaning.
* The library pieces the code calls (`bufio.Reader`, `strconv`, `strings.ToUpper`,
  map iteration) are modelled next to their callers and documented there.
-/

namespace Godis

/-! ## Basic types -/

/-- Go `string` / `[]byte`: a finite sequence of bytes, each a natural number. -/
abbrev Bytes := List Nat

/-- Bytes of an ASCII string literal of the source. -/
def ascii (s : String) : Bytes := s.toList.map Char.toNat

/-- Go `error` values that the codec can return: `io.EOF` from the reader, and the two
`strconv.NumError` kinds of `strconv.ParseInt`. -/
inductive Err where
  | EOF
  | ErrSyntax
  | ErrRange
deriving DecidableEq, Repr

/-- Outcome of a Go call: a normal return, a returned `error`, or a runtime panic.
`outOfFuel` is the model running out of its recursion bound. -/
inductive Res (α : Type) where
  | ok (a : α)
  | err (e : Err)
  | panic
  | outOfFuel
deriving DecidableEq, Repr

/-- Sequencing of Go statements: the first abnormal outcome ends the function. -/
def Res.bind {α β : Type} (x : Res α) (f : α → Res β) : Res β :=
  match x with
  | .ok a => f a
  | .err e => .err e
  | .panic => .panic
  | .outOfFuel => .outOfFuel

instance : Monad Res where
  pure := Res.ok
  bind := Res.bind

/-- Whether the call returned normally (no error, no panic). -/
def Res.isOk {α : Type} : Res α → Bool
  | .ok _ => true
  | _ => false

/-! ## `resp.go`: the Value type -/

/-- Wire prefix of a simple string, `'+'`. -/
def STRING : Nat := 43
/-- Wire prefix of an error, `'-'`. -/
def ERROR : Nat := 45
/-- Wire prefix of an integer, `':'`. -/
def INTEGER : Nat := 58
/-- Wire prefix of a bulk string, `'$'`. -/
def BULK : Nat := 36
/-- Wire prefix of an array, `'*'`. -/
def ARRAY : Nat := 42
/-- Carriage return, `'\r'`. -/
def CR : Nat := 13
/-- Line feed, `'\n'`. -/
def LF : Nat := 10

/-- The struct `Value` of `resp.go`, with its five fields in order. -/
inductive Value where
  | mk (typ : String) (str : Bytes) (num : Int) (bulk : Bytes) (array : List Value)

/-- Field `typ`. -/
def Value.typ : Value → String
  | .mk t _ _ _ _ => t
/-- Field `str`. -/
def Value.str : Value → Bytes
  | .mk _ s _ _ _ => s
/-- Field `num`. -/
def Value.num : Value → Int
  | .mk _ _ n _ _ => n
/-- Field `bulk`. -/
def Value.bulk : Value → Bytes
  | .mk _ _ _ b _ => b
/-- Field `array`. -/
def Value.array : Value → List Value
  | .mk _ _ _ _ a => a

/-- The zero value `Value{}`. -/
def Value.zero : Value := .mk "" [] 0 [] []

/-- Literal `Value{typ: "string", str: s}`. -/
def simpleString (s : Bytes) : Value := .mk "string" s 0 [] []
/-- Literal `Value{typ: "error", str: s}`. -/
def errorValue (s : Bytes) : Value := .mk "error" s 0 [] []
/-- Literal `Value{typ: "integer", num: n}`. -/
def integerValue (n : Int) : Value := .mk "integer" [] n [] []
/-- Literal `Value{typ: "bulk", bulk: b}`. -/
def bulkString (b : Bytes) : Value := .mk "bulk" [] 0 b []
/-- Literal `Value{typ: "null"}`. -/
def nullValue : Value := .mk "null" [] 0 [] []
/-- Literal `Value{typ: "array", array: vs}`. -/
def arrayValue (vs : List Value) : Value := .mk "array" [] 0 [] vs

mutual
/-- Values of the request grammar: a bulk string, or an array of such values (the
fields that the variant does not use hold their zero values). -/
def isRequestValue : Value → Bool
  | .mk typ str num bulk array =>
    if typ = "bulk" then decide (str = []) && decide (num = 0) && array.isEmpty
    else if typ = "array" then
      decide (str = []) && decide (num = 0) && decide (bulk = []) && areRequestValues array
    else false
/-- Every element of the list is a value of the request grammar. -/
def areRequestValues : List Value → Bool
  | [] => true
  | v :: vs => isRequestValue v && areRequestValues vs
end

/-! ## `bufio.Reader` as used by `resp.go`

`CreateResp` wraps its source in `bufio.NewReader`, a reader with a buffer of
`defaultBufSize` bytes. The source is a finite byte sequence that hands out as many
bytes as are asked for while bytes remain and `io.EOF` afterwards (a regular file, an
in-memory reader). The state of the reader is the buffered, not yet consumed bytes and
the bytes still in the source. -/

/-- Buffer size of `bufio.NewReader`. -/
def defaultBufSize : Nat := 4096

/-- State of a `bufio.Reader`: `buf` is the unread part of its buffer, `src` what the
underlying reader has not delivered yet. -/
structure Reader where
  buf : Bytes
  src : Bytes
deriving DecidableEq, Repr

/-- A fresh `bufio.NewReader` over a source holding `s`. -/
def Reader.new (s : Bytes) : Reader := Reader.mk [] s

/-- All bytes the reader will still deliver. -/
def Reader.rest (r : Reader) : Bytes := r.buf ++ r.src

/-- Method `(*bufio.Reader).ReadByte`: with an empty buffer it fills the buffer from the
source first (at most `defaultBufSize` bytes) and reports `io.EOF` when the source is
exhausted. -/
def Reader.ReadByte (r : Reader) : Res (Nat × Reader) :=
  match r.buf with
  | b :: bs => .ok (b, Reader.mk bs r.src)
  | [] =>
    match r.src.take defaultBufSize with
    | [] => .err .EOF
    | b :: bs => .ok (b, Reader.mk bs (r.src.drop defaultBufSize))

/-- Method `(*bufio.Reader).Read(p)` with `len(p) = n`, `p` zeroed by `make`: the result is
the content of `p` after the call. The bytes come from the buffer when it is not empty
(as many as are buffered, at most `n`), otherwise from one read of the source: straight
into `p` when `n` is at least the buffer size, through the buffer when it is smaller.
The count of bytes copied may be smaller than `n` ("the bytes are taken from at most one
Read on the underlying Reader, hence n may be less than len(p)", package `bufio`); the
caller `readBulk` discards it. -/
def Reader.Read (r : Reader) (n : Nat) : Res (Bytes × Reader) :=
  if n = 0 then .ok ([], r)
  else
    match r.buf with
    | [] =>
      if r.src = [] then .err .EOF
      else if defaultBufSize ≤ n then
        let got := r.src.take n
        .ok (got ++ List.replicate (n - got.length) 0, Reader.mk [] (r.src.drop n))
      else
        let filled := r.src.take defaultBufSize
        let got := filled.take n
        .ok (got ++ List.replicate (n - got.length) 0,
          Reader.mk (filled.drop n) (r.src.drop defaultBufSize))
    | b :: bs =>
      let got := (b :: bs).take n
      .ok (got ++ List.replicate (n - got.length) 0, Reader.mk ((b :: bs).drop n) r.src)

/-! ## `strconv` as used by `resp.go` -/

/-- Digit loop of `strconv.FormatInt` in base 10: digits are produced from the least
significant one and put in front of what was produced before. -/
def formatBits : Nat → Nat → Bytes → Bytes
  | 0, _, acc => acc
  | fuel + 1, n, acc =>
    if n < 10 then (48 + n) :: acc
    else formatBits fuel (n / 10) ((48 + n % 10) :: acc)

/-- Function `strconv.Itoa`: decimal digits, with a leading `'-'` for a negative number. -/
def Itoa (i : Int) : Bytes :=
  match i with
  | .ofNat n => formatBits (n + 1) n []
  | .negSucc n => 45 :: formatBits (n + 2) (n + 1) []

/-- Digit loop of `strconv.ParseUint(s, 10, 64)`: a byte that is not a decimal digit is a
syntax error, a value that leaves the range of `uint64` a range error. -/
def parseUintLoop : Bytes → Nat → Res Nat
  | [], n => .ok n
  | c :: cs, n =>
    if 48 ≤ c ∧ c ≤ 57 then
      if n ≥ 1844674407370955162 then .err .ErrRange
      else
        let n1 := n * 10 + (c - 48)
        if n1 ≥ 18446744073709551616 then .err .ErrRange
        else parseUintLoop cs n1
    else .err .ErrSyntax

/-- Function `strconv.ParseUint(s, 10, 64)`. -/
def ParseUint (s : Bytes) : Res Nat :=
  if s = [] then .err .ErrSyntax else parseUintLoop s 0

/-- Function `strconv.ParseInt(s, 10, 64)`: an optional sign, then `ParseUint`, then the
range check for `int64`. -/
def ParseInt (s : Bytes) : Res Int :=
  match s with
  | [] => .err .ErrSyntax
  | c :: cs =>
    let neg := decide (c = 45)
    let digits := if c = 43 ∨ c = 45 then cs else c :: cs
    match ParseUint digits with
    | .ok un =>
      if ¬ neg ∧ un ≥ 9223372036854775808 then .err .ErrRange
      else if neg ∧ un > 9223372036854775808 then .err .ErrRange
      else if neg then .ok (- (un : Int)) else .ok (un : Int)
    | .err e => .err e
    | .panic => .panic
    | .outOfFuel => .outOfFuel

/-! ## `resp.go`: reading -/

/-- The loop of `readLine`: read bytes until the byte before the last one read is `'\r'`,
then return the line without its last two bytes, and the number of bytes read. -/
def readLineLoop : Nat → Reader → Bytes → Nat → Res (Bytes × Nat × Reader)
  | 0, _, _, _ => .outOfFuel
  | fuel + 1, r, line, size =>
    match r.ReadByte with
    | .ok (readByte, r1) =>
      let size1 := size + 1
      let line1 := line ++ [readByte]
      if line1.length ≥ 2 ∧ line1[line1.length - 2]? = some CR then
        .ok (line1.take (line1.length - 2), size1, r1)
      else readLineLoop fuel r1 line1 size1
    | .err e => .err e
    | .panic => .panic
    | .outOfFuel => .outOfFuel

/-- Method `(*Resp).readLine`. Every turn of the loop consumes a byte, so one turn more
than there are bytes left is enough. -/
def readLine (r : Reader) : Res (Bytes × Nat × Reader) :=
  readLineLoop (r.rest.length + 1) r [] 0

/-- Method `(*Resp).readInteger`. -/
def readInteger (r : Reader) : Res (Int × Nat × Reader) := do
  let (line, size, r1) ← readLine r
  let i64 ← ParseInt line
  return (i64, size, r1)

/-- Limit of the Go allocator on the size in bytes of one object: `maxAlloc` of package
`runtime` on a 64-bit platform with 48 address bits. -/
def maxAlloc : Nat := 281474976710656

/-- Size in bytes of a `Value` on a 64-bit platform: three strings of 16 bytes each, an
`int` of 8 bytes and a slice header of 24 bytes. -/
def sizeofValue : Nat := 80

/-- Built-in `make([]T, length)` for elements of `size` bytes (`runtime.makeslice`): a
runtime panic when the length is negative or the slice would take more than `maxAlloc`
bytes, otherwise the length of the new slice, which is all zero. -/
def makeslice (size : Nat) (length : Int) : Res Nat :=
  if length < 0 ∨ (maxAlloc : Int) < (size : Int) * length then .panic
  else .ok length.toNat

/-- The element loop of `readArray`: `n` calls of `Read`, the values in order. -/
def readArrayLoop (read : Reader → Res (Value × Reader)) :
    Nat → Reader → Res (List Value × Reader)
  | 0, r => .ok ([], r)
  | n + 1, r => do
    let (val, r1) ← read r
    let (vals, r2) ← readArrayLoop read n r1
    return (val :: vals, r2)

/-- Method `(*Resp).readArray`, over the `Read` it calls for the elements.
`make([]Value, length)` can panic. -/
def readArray (read : Reader → Res (Value × Reader)) (r : Reader) : Res (Value × Reader) := do
  let (length, _, r1) ← readInteger r
  let n ← makeslice sizeofValue length
  let (vals, r2) ← readArrayLoop read n r1
  return (Value.mk "array" [] 0 [] vals, r2)

/-- Method `(*Resp).readBulk`. `make([]byte, length)` can panic; the payload is whatever
`reader.Read` left in the slice. -/
def readBulk (r : Reader) : Res (Value × Reader) := do
  let (length, _, r1) ← readInteger r
  let n ← makeslice 1 length
  let (bulk, r2) ← r1.Read n
  let (_, _, r3) ← readLine r2
  return (Value.mk "bulk" [] 0 bulk [], r3)

/-- Method `(*Resp).Read` with a bound on the nesting depth of arrays. -/
def ReadFuel : Nat → Reader → Res (Value × Reader)
  | 0, _ => .outOfFuel
  | fuel + 1, r => do
    let (typ, r1) ← r.ReadByte
    if typ = ARRAY then readArray (ReadFuel fuel) r1
    else if typ = BULK then readBulk r1
    else return (Value.zero, r1)

/-- Method `(*Resp).Read`. Every nesting level consumes its type byte, so the depth is
at most the number of bytes left. -/
def Read (r : Reader) : Res (Value × Reader) :=
  ReadFuel (r.rest.length + 1) r

/-- The outcome `x` of a read from `r` is within the model and makes progress: a panic, an
error, or a result that leaves strictly less to read than `r` had. -/
def Advances {α : Type} (x : Res (α × Reader)) (r : Reader) : Prop :=
  x = .panic ∨ (∃ e, x = .err e) ∨ ∃ v r1, x = .ok (v, r1) ∧ r1.rest.length < r.rest.length

/-! ## `resp.go`: writing -/

/-- Method `Value.marshalString`. -/
def marshalString (value : Value) : Bytes := [STRING] ++ value.str ++ [CR, LF]

/-- Method `Value.marshalBulk`. -/
def marshalBulk (value : Value) : Bytes :=
  [BULK] ++ Itoa value.bulk.length ++ [CR, LF] ++ value.bulk ++ [CR, LF]

/-- Method `Value.marshalInteger`. -/
def marshalInteger (value : Value) : Bytes := [INTEGER] ++ Itoa value.num ++ [CR, LF]

/-- Method `Value.marshalError`. -/
def marshalError (value : Value) : Bytes := [ERROR] ++ value.str ++ [CR, LF]

/-- Method `Value.marshalNull`: the bytes of `"$-1\r\n"`. -/
def marshalNull (_value : Value) : Bytes := [36, 45, 49, 13, 10]

mutual
/-- Method `Value.Marshal`. -/
def Marshal : Value → Bytes
  | .mk typ str num bulk array =>
    if typ = "array" then [ARRAY] ++ Itoa array.length ++ [CR, LF] ++ marshalElems array
    else if typ = "bulk" then marshalBulk (.mk typ str num bulk array)
    else if typ = "string" then marshalString (.mk typ str num bulk array)
    else if typ = "integer" then marshalInteger (.mk typ str num bulk array)
    else if typ = "null" then marshalNull (.mk typ str num bulk array)
    else if typ = "error" then marshalError (.mk typ str num bulk array)
    else []
/-- The element loop of `marshalArray`: the encodings of the elements, in order. -/
def marshalElems : List Value → Bytes
  | [] => []
  | v :: vs => Marshal v ++ marshalElems vs
end

/-- Method `Value.marshalArray`. -/
def marshalArray (value : Value) : Bytes :=
  [ARRAY] ++ Itoa value.array.length ++ [CR, LF] ++ marshalElems value.array

/-! ## `handler.go`: the store and the command handlers -/

/-- A Go `map[string]V`: its entries, one per key. -/
abbrev GoMap (V : Type) := List (Bytes × V)

/-- Lookup `v, ok := m[k]`. -/
def mapGet {V : Type} : GoMap V → Bytes → Option V
  | [], _ => none
  | (k1, v1) :: m, k => if k1 = k then some v1 else mapGet m k

/-- Assignment `m[k] = v`: the entry of `k` is replaced, or added when there is none. -/
def mapSet {V : Type} : GoMap V → Bytes → V → GoMap V
  | [], k, v => [(k, v)]
  | (k1, v1) :: m, k, v => if k1 = k then (k, v) :: m else (k1, v1) :: mapSet m k v

/-- The keys present in a Go map. -/
def mapKeys {V : Type} (m : GoMap V) : List Bytes := m.map Prod.fst

/-- The keys of a Go map are pairwise distinct. -/
def mapWF {V : Type} (m : GoMap V) : Prop := (mapKeys m).Nodup

/-- The two package-level maps `SETs` and `HSETs`. -/
structure Store where
  SETs : GoMap Bytes
  HSETs : GoMap (GoMap Bytes)
deriving DecidableEq, Repr

/-- The maps as initialised at process start: both empty. -/
def Store.empty : Store := Store.mk [] []

/-- What the code takes from its runtime and does not fix itself: `mapUpper` is
`strings.Map(unicode.ToUpper, s)`, the path of `strings.ToUpper` for a string with a byte
outside ASCII; `rangeOrder` is the order in which a `for ... range` visits the entries of
a map. -/
structure Env where
  mapUpper : Bytes → Bytes
  rangeOrder : GoMap Bytes → List (Bytes × Bytes)

/-- Index expression `args[i]`: a runtime panic when `i` is out of range. -/
def index (args : List Value) (i : Nat) : Res Value :=
  match args[i]? with
  | some v => .ok v
  | none => .panic

/-- A command handler `func([]Value) Value`, with the store it reads and writes. -/
abbrev Handler := List Value → Store → Res (Value × Store)

/-- Handler `hset`. -/
def hset (args : List Value) (st : Store) : Res (Value × Store) :=
  if args.length ≠ 3 then
    .ok (Value.mk "error" (ascii "ERR wrong number of arguments for \x27hset\x27 command") 0 [] [], st)
  else do
    let hash := (← index args 0).bulk
    let key := (← index args 1).bulk
    let value := (← index args 2).bulk
    let hashMap := match mapGet st.HSETs hash with
      | some m => m
      | none => []
    return (Value.mk "string" (ascii "OK") 0 [] [],
      Store.mk st.SETs (mapSet st.HSETs hash (mapSet hashMap key value)))

/-- Handler `hget`. Indexing the missing hash gives the nil map, in which no key is
present. -/
def hget (args : List Value) (st : Store) : Res (Value × Store) :=
  if args.length ≠ 2 then
    .ok (Value.mk "error" (ascii "ERR wrong number of arguments for \x27hget\x27 command") 0 [] [], st)
  else do
    let hash := (← index args 0).bulk
    let key := (← index args 1).bulk
    let found := match mapGet st.HSETs hash with
      | some m => mapGet m key
      | none => none
    match found with
    | none => return (Value.mk "null" [] 0 [] [], st)
    | some value => return (Value.mk "bulk" [] 0 value [], st)

/-- The loop of `hgetall`: field and value of every visited entry, appended in turn. -/
def hgetallLoop : List (Bytes × Bytes) → List Value
  | [] => []
  | (field, value) :: more =>
    Value.mk "bulk" [] 0 field [] :: Value.mk "bulk" [] 0 value [] :: hgetallLoop more

/-- Handler `hgetall`. -/
def hgetall (env : Env) (args : List Value) (st : Store) : Res (Value × Store) :=
  if args.length ≠ 1 then
    .ok (Value.mk "error" (ascii "ERR wrong number of arguments for \x27hgetall\x27 command") 0 [] [], st)
  else do
    let hash := (← index args 0).bulk
    match mapGet st.HSETs hash with
    | none => return (Value.mk "array" [] 0 [] [], st)
    | some hashMap => return (Value.mk "array" [] 0 [] (hgetallLoop (env.rangeOrder hashMap)), st)

/-- The elements of a flattened reply taken two by two: (element 0, element 1),
(element 2, element 3), and so on. -/
def pairUp : List Value → List (Value × Value)
  | a :: b :: more => (a, b) :: pairUp more
  | _ => []

/-- Handler `set`. -/
def set (args : List Value) (st : Store) : Res (Value × Store) :=
  if args.length ≠ 2 then
    .ok (Value.mk "error" (ascii "ERR wrong number of arguments for \x27set\x27 command") 0 [] [], st)
  else do
    let key := (← index args 0).bulk
    let value := (← index args 1).bulk
    return (Value.mk "string" (ascii "OK") 0 [] [], Store.mk (mapSet st.SETs key value) st.HSETs)

/-- Handler `get`. -/
def get (args : List Value) (st : Store) : Res (Value × Store) :=
  if args.length ≠ 1 then
    .ok (Value.mk "error" (ascii "ERR wrong number of arguments for \x27get\x27 command") 0 [] [], st)
  else do
    let key := (← index args 0).bulk
    match mapGet st.SETs key with
    | none => return (Value.mk "null" [] 0 [] [], st)
    | some value => return (Value.mk "bulk" [] 0 value [], st)

/-- Handler `ping`. -/
def ping (args : List Value) (st : Store) : Res (Value × Store) :=
  if args.length = 0 then
    .ok (Value.mk "string" (ascii "PONG") 0 [] [], st)
  else do
    let a ← index args 0
    return (Value.mk "string" a.bulk 0 [] [], st)

/-- The table `Handlers`: lookup `handler, ok := Handlers[command]`. -/
def Handlers (env : Env) (command : Bytes) : Option Handler :=
  if command = ascii "PING" then some ping
  else if command = ascii "SET" then some set
  else if command = ascii "GET" then some get
  else if command = ascii "HSET" then some hset
  else if command = ascii "HGET" then some hget
  else if command = ascii "HGETALL" then some (hgetall env)
  else none

/-! ## `main.go`: dispatch, and `aof.go`: the log -/

/-- The ASCII case of `strings.ToUpper`: `'a'..'z'` become `'A'..'Z'`. -/
def upperByte (c : Nat) : Nat := if 97 ≤ c ∧ c ≤ 122 then c - 32 else c

/-- Function `strings.ToUpper`: a string of ASCII bytes only is returned as it is when it
has no lower-case letter and with its lower-case letters replaced otherwise; any other
string goes through `strings.Map(unicode.ToUpper, s)`. -/
def ToUpper (env : Env) (s : Bytes) : Bytes :=
  if s.all (fun c => decide (c < 128)) then
    if s.any (fun c => decide (97 ≤ c ∧ c ≤ 122)) then s.map upperByte else s
  else env.mapUpper s

/-- What a connection handler works on: the store, the content of the log file (the
writes of `aof.Write` land at its end), and the bytes written to the client so far. -/
structure Server where
  store : Store
  aof : Bytes
  out : Bytes
deriving DecidableEq, Repr

/-- A server at process start with an empty log file. -/
def Server.init : Server := Server.mk Store.empty [] []

/-- One turn of the loop of `handleConnection`, from the value that `resp.Read` returned
without error to the `continue` or the end of the loop body. Writes to the connection
and to the log file are taken to succeed. -/
def handleValue (env : Env) (val : Value) (s : Server) : Res Server :=
  if val.typ ≠ "array" then .ok s
  else if val.array.length = 0 then .ok s
  else do
    let command := ToUpper env (← index val.array 0).bulk
    let args := val.array.drop 1
    match Handlers env command with
    | none => return Server.mk s.store s.aof (s.out ++ Marshal (Value.mk "string" [] 0 [] []))
    | some handler =>
      let aof1 :=
        if command = ascii "SET" ∨ command = ascii "HSET" ∨ command = ascii "DEL" then
          s.aof ++ Marshal val
        else s.aof
      let (result, store1) ← handler args s.store
      return Server.mk store1 aof1 (s.out ++ Marshal result)

/-- The turns of the loop of `handleConnection` on the values that its successive calls
of `resp.Read` returned. How these values come out of the bytes of the connection is not
part of this function; it is part of `handleConnection`. -/
def handleValues (env : Env) : List Value → Server → Res Server
  | [], s => .ok s
  | val :: vals, s => do
    let s1 ← handleValue env val s
    handleValues env vals s1

/-- The loop of `handleConnection`. Every turn makes a new `Resp`, that is a new
`bufio.Reader`, over the connection and reads one value from it; the reader, and with it
the bytes it has taken from the connection into its buffer and not consumed, is gone at
the end of the turn. A value read without error goes through the body of the loop
(`handleValue`); `io.EOF` leaves the loop and any other error returns, which both end
the handler. `conn` is what the connection still has to deliver. -/
def handleConnectionLoop (env : Env) : Nat → Bytes → Server → Res Server
  | 0, _, _ => .outOfFuel
  | fuel + 1, conn, s =>
    match Read (Reader.new conn) with
    | .ok (val, r1) => do
      let s1 ← handleValue env val s
      handleConnectionLoop env fuel r1.src s1
    | .err _ => .ok s
    | .panic => .panic
    | .outOfFuel => .outOfFuel

/-- Function `handleConnection` for a client that has sent the bytes `conn` when the
handler begins to read, sends nothing after them and closes its side: a read of the
connection returns as many of the bytes not yet read as it asks for, and `io.EOF` when
none is left. Every turn that reads a value consumes a byte, so one turn more than
there are bytes is enough. -/
def handleConnection (env : Env) (conn : Bytes) (s : Server) : Res Server :=
  handleConnectionLoop env (conn.length + 1) conn s

/-- The callback that `main` passes to `aof.Read`: run the handler of the logged command,
drop its reply. -/
def replayCallback (env : Env) (value : Value) (st : Store) : Res Store := do
  let command := ToUpper env (← index value.array 0).bulk
  let args := value.array.drop 1
  match Handlers env command with
  | none => return st
  | some handler =>
    let (_, st1) ← handler args st
    return st1

/-- The loop of `AOF.Read`: call the callback on every value read without error, stop
without error at `io.EOF`, stop with the error at any other error. The result is the
state the callback left and the error returned. -/
def aofReadLoop (callback : Value → Store → Res Store) :
    Nat → Reader → Store → Res (Store × Option Err)
  | 0, _, _ => .outOfFuel
  | fuel + 1, r, st =>
    match Read r with
    | .ok (val, r1) => do
      let st1 ← callback val st
      aofReadLoop callback fuel r1 st1
    | .err .EOF => .ok (st, none)
    | .err e => .ok (st, some e)
    | .panic => .panic
    | .outOfFuel => .outOfFuel

/-- Method `AOF.Read` on a log file with content `file`, read from its start through the
buffered reader of `CreateAOF`. Every value read consumes a byte, so one turn more than
there are bytes is enough. -/
def aofRead (callback : Value → Store → Res Store) (file : Bytes) (st : Store) :
    Res (Store × Option Err) :=
  aofReadLoop callback (file.length + 1) (Reader.new file) st

/-- The start of `main`: replay the log into the empty maps. The error of `aof.Read` is
not looked at. -/
def replay (env : Env) (file : Bytes) : Res Store := do
  let (st, _) ← aofRead (replayCallback env) file Store.empty
  return st

/-! ## Concrete inputs used below -/

/-- A runtime that leaves names with a byte outside ASCII as they are and visits the
entries of a map in stored order. -/
def Env.plain : Env := Env.mk (fun s => s) (fun m => m)

/-- The request `SET a 1`. -/
def setA1 : Value :=
  arrayValue [bulkString (ascii "SET"), bulkString (ascii "a"), bulkString (ascii "1")]

/-- The request `SET a xxx...x` with a value of 4090 bytes `x`. -/
def bigSet : Value :=
  arrayValue [bulkString (ascii "SET"), bulkString (ascii "a"),
    bulkString (List.replicate 4090 120)]

/-- The encoding of `bigSet` between its first byte `'*'` and the 4090 bytes of its
value. -/
def bigSetHead : Bytes := ascii "3\r\n$3\r\nSET\r\n$1\r\na\r\n$4090\r\n"

/-! ## The wire grammar as the specification words it -/

/-- The decimal notation of an integer: the digits of its absolute value, most
significant first, after a `-` when it is negative (`toString` on `Int`). -/
def decimal (i : Int) : Bytes := ascii (toString i)

/-! ## A stream cut inside a large payload -/

/-- A payload of 4100 bytes: 4089 bytes `x`, a CRLF, nine more bytes `x`. -/
def cutPayload : Bytes := List.replicate 4089 120 ++ ([13, 10] ++ List.replicate 9 120)

/-- The first 4098 bytes of the encoding of the bulk string `cutPayload`: the line
`$4100`, and the payload up to and including its CRLF. -/
def cutStream : Bytes := ascii "$4100\r\n" ++ (List.replicate 4089 120 ++ [13, 10])

/-! # Theorems -/

/-! ## Outcomes -/

@[simp] theorem Res.ok_bind {α β : Type} (a : α) (f : α → Res β) : (Res.ok a >>= f) = f a := rfl
@[simp] theorem Res.err_bind {α β : Type} (e : Err) (f : α → Res β) :
    ((Res.err e : Res α) >>= f) = Res.err e := rfl
@[simp] theorem Res.panic_bind {α β : Type} (f : α → Res β) :
    ((Res.panic : Res α) >>= f) = Res.panic := rfl
@[simp] theorem Res.outOfFuel_bind {α β : Type} (f : α → Res β) :
    ((Res.outOfFuel : Res α) >>= f) = Res.outOfFuel := rfl
@[simp] theorem Res.pure_eq {α : Type} (a : α) : (pure a : Res α) = Res.ok a := rfl

/-! ## Go maps -/

theorem mapGet_mapSet_same {V : Type} (m : GoMap V) (k : Bytes) (v : V) :
    mapGet (mapSet m k v) k = some v := by
  induction m with
  | nil => simp [mapSet, mapGet]
  | cons e m ih =>
    obtain ⟨k1, v1⟩ := e
    by_cases h : k1 = k
    · simp [mapSet, mapGet, h]
    · simp [mapSet, mapGet, h, ih]

/-- An assignment leaves the lookup of every other key as it was. -/
theorem mapGet_mapSet_other {V : Type} (m : GoMap V) (k k2 : Bytes) (v : V) (hne : k2 ≠ k) :
    mapGet (mapSet m k v) k2 = mapGet m k2 := by
  induction m with
  | nil => simp [mapSet, mapGet, Ne.symm hne]
  | cons e m ih =>
    obtain ⟨k1, v1⟩ := e
    by_cases h : k1 = k
    · subst h
      simp [mapSet, mapGet, Ne.symm hne]
    · by_cases h2 : k1 = k2
      · subst h2
        simp [mapSet, mapGet, h]
      · simp [mapSet, mapGet, h, h2, ih]

/-- A lookup misses exactly on the keys that are not in the map. -/
theorem mapGet_eq_none_iff {V : Type} (m : GoMap V) (k : Bytes) :
    mapGet m k = none ↔ k ∉ mapKeys m := by
  induction m with
  | nil => simp [mapGet, mapKeys]
  | cons e m ih =>
    obtain ⟨k1, v1⟩ := e
    by_cases h : k1 = k
    · simp [mapGet, mapKeys, h]
    · have h2 : ¬ k = k1 := fun x => h x.symm
      simp only [mapKeys] at ih
      simp [mapGet, mapKeys, h, h2, ih]

/-! ## The handlers -/

@[simp] theorem index_zero (a : Value) (l : List Value) : index (a :: l) 0 = .ok a := by
  simp [index]
@[simp] theorem index_one (a b : Value) (l : List Value) : index (a :: b :: l) 1 = .ok b := by
  simp [index]
@[simp] theorem index_two (a b c : Value) (l : List Value) :
    index (a :: b :: c :: l) 2 = .ok c := by
  simp [index]

/-- Claim C3 (SET/GET map law, last write wins). In every store, `set [k, v]` replies the
simple string `OK`; afterwards `get [k2]` returns the bulk string `v` when `k2 = k`, and
when `k2 ≠ k` it returns the reply that `get [k2]` gave before the `set`, whatever `k`
held before. -/
theorem set_then_get_last_write_wins (st : Store) (k k2 v : Bytes) :
    ∃ st1, set [bulkString k, bulkString v] st = .ok (simpleString (ascii "OK"), st1) ∧
      (k2 = k → get [bulkString k2] st1 = .ok (bulkString v, st1)) ∧
      (k2 ≠ k → ∃ reply, get [bulkString k2] st = .ok (reply, st) ∧
        get [bulkString k2] st1 = .ok (reply, st1)) := by
  refine ⟨Store.mk (mapSet st.SETs k v) st.HSETs, ?_, ?_, ?_⟩
  · simp [set, bulkString, simpleString, Value.bulk]
  · intro h
    subst h
    simp [get, bulkString, Value.bulk, mapGet_mapSet_same]
  · intro h
    simp only [get, bulkString, Value.bulk, List.length_singleton, ne_eq, not_true_eq_false,
      if_false, index_zero, Res.ok_bind, mapGet_mapSet_other _ _ _ _ h]
    cases mapGet st.SETs k2 <;> simp

theorem bulkString_injective : Function.Injective bulkString := by
  intro a b h
  simpa [bulkString] using h

theorem pairUp_hgetallLoop (l : List (Bytes × Bytes)) :
    pairUp (hgetallLoop l) = l.map (fun e => (bulkString e.1, bulkString e.2)) := by
  induction l with
  | nil => rfl
  | cons e l ih =>
    obtain ⟨f, v⟩ := e
    simp [hgetallLoop, pairUp, ih, bulkString]

theorem length_hgetallLoop (l : List (Bytes × Bytes)) :
    (hgetallLoop l).length = 2 * l.length := by
  induction l with
  | nil => rfl
  | cons e l ih =>
    obtain ⟨f, v⟩ := e
    simp [hgetallLoop, ih]
    omega

theorem hgetallLoop_bulk (l : List (Bytes × Bytes)) :
    ∀ x ∈ hgetallLoop l, ∃ b, x = bulkString b := by
  induction l with
  | nil => simp [hgetallLoop]
  | cons e l ih =>
    obtain ⟨f, v⟩ := e
    intro x hx
    simp only [hgetallLoop, List.mem_cons] at hx
    rcases hx with hx | hx | hx
    · exact ⟨f, hx⟩
    · exact ⟨v, hx⟩
    · exact ih x hx

/-- Claim C4 (HSET/HGET map law). In every store, `hset [h, f, v]` replies the simple
string `OK` and hash `h` exists afterwards; then `hget [h2, f2]` returns the bulk string
`v` when `(h2, f2) = (h, f)` and otherwise the reply that `hget [h2, f2]` gave before the
`hset`. -/
theorem hset_then_hget (st : Store) (h h2 f f2 v : Bytes) :
    ∃ st1, hset [bulkString h, bulkString f, bulkString v] st
        = .ok (simpleString (ascii "OK"), st1) ∧
      h ∈ mapKeys st1.HSETs ∧
      (h2 = h ∧ f2 = f → hget [bulkString h2, bulkString f2] st1 = .ok (bulkString v, st1)) ∧
      (¬ (h2 = h ∧ f2 = f) → ∃ reply, hget [bulkString h2, bulkString f2] st = .ok (reply, st) ∧
        hget [bulkString h2, bulkString f2] st1 = .ok (reply, st1)) := by
  refine ⟨Store.mk st.SETs (mapSet st.HSETs h (mapSet
    (match mapGet st.HSETs h with
      | some m => m
      | none => []) f v)), ?_, ?_, ?_, ?_⟩
  · simp [hset, bulkString, simpleString, Value.bulk]
  · have := mapGet_mapSet_same st.HSETs h (mapSet
      (match mapGet st.HSETs h with
        | some m => m
        | none => []) f v)
    by_contra hk
    rw [← mapGet_eq_none_iff] at hk
    simp [hk] at this
  · rintro ⟨rfl, rfl⟩
    simp [hget, bulkString, Value.bulk, mapGet_mapSet_same]
  · intro hne
    by_cases hh : h2 = h
    · subst hh
      have hf : f2 ≠ f := fun x => hne ⟨rfl, x⟩
      simp only [hget, bulkString, Value.bulk, List.length_cons, List.length_nil, ne_eq,
        not_true_eq_false, if_false, index_zero, index_one, Res.ok_bind,
        mapGet_mapSet_same, mapGet_mapSet_other _ _ _ _ hf]
      cases hm : mapGet st.HSETs h2 with
      | none => simp [mapGet]
      | some m => rcases hx : mapGet m f2 with _ | w <;> simp [hx]
    · simp only [hget, bulkString, Value.bulk, List.length_cons, List.length_nil, ne_eq,
        not_true_eq_false, if_false, index_zero, index_one, Res.ok_bind,
        mapGet_mapSet_other _ _ _ _ hh]
      cases hm : mapGet st.HSETs h2 with
      | none => simp
      | some m => rcases hx : mapGet m f2 with _ | w <;> simp [hx]

/-- Claim C5 (absence is Null, never an error). In every store, `get [k]` replies Null
exactly when `k` is not a key of the flat map and the bulk string of the stored value
otherwise; `hget [h, f]` replies Null exactly when hash `h` does not exist or has no
field `f` and the bulk string of the stored value otherwise; a `get` with one argument
and an `hget` with two arguments, of any kind, reply Null or a bulk string, never an
Error. -/
theorem absence_is_null_never_error (st : Store) :
    (∀ k, ∃ reply, get [bulkString k] st = .ok (reply, st) ∧
      (reply = nullValue ↔ k ∉ mapKeys st.SETs) ∧
      (∀ v, mapGet st.SETs k = some v → reply = bulkString v)) ∧
    (∀ h f, ∃ reply, hget [bulkString h, bulkString f] st = .ok (reply, st) ∧
      (reply = nullValue ↔
        (h ∉ mapKeys st.HSETs ∨ ∃ m, mapGet st.HSETs h = some m ∧ f ∉ mapKeys m)) ∧
      (∀ m v, mapGet st.HSETs h = some m → mapGet m f = some v → reply = bulkString v)) ∧
    (∀ args, args.length = 1 → ∃ reply, get args st = .ok (reply, st) ∧
      (reply.typ = "null" ∨ reply.typ = "bulk") ∧ reply.typ ≠ "error") ∧
    (∀ args, args.length = 2 → ∃ reply, hget args st = .ok (reply, st) ∧
      (reply.typ = "null" ∨ reply.typ = "bulk") ∧ reply.typ ≠ "error") := by
  refine ⟨?_, ?_, ?_, ?_⟩
  · intro k
    simp only [← mapGet_eq_none_iff]
    cases hk : mapGet st.SETs k with
    | none => exact ⟨nullValue, by simp [get, bulkString, Value.bulk, hk, nullValue], by simp, by simp⟩
    | some v =>
      exact ⟨bulkString v, by simp [get, bulkString, Value.bulk, hk],
        by simp [bulkString, nullValue], by simp⟩
  · intro h f
    simp only [← mapGet_eq_none_iff]
    cases hh : mapGet st.HSETs h with
    | none => exact ⟨nullValue, by simp [hget, bulkString, Value.bulk, hh, nullValue], by simp, by simp⟩
    | some m =>
      cases hf : mapGet m f with
      | none =>
        refine ⟨nullValue, by simp [hget, bulkString, Value.bulk, hh, hf, nullValue],
          by simp [hf], ?_⟩
        intro m2 v2 h1 h2
        simp only [Option.some.injEq] at h1
        subst h1
        rw [hf] at h2
        exact absurd h2 (by simp)
      | some v =>
        refine ⟨bulkString v, by simp [hget, bulkString, Value.bulk, hh, hf],
          by simp [bulkString, nullValue, hf], ?_⟩
        intro m2 v2 h1 h2
        simp only [Option.some.injEq] at h1
        subst h1
        rw [hf] at h2
        simp only [Option.some.injEq] at h2
        rw [h2]
  · intro args hlen
    match args, hlen with
    | [a], _ =>
      cases hk : mapGet st.SETs a.bulk with
      | none => exact ⟨nullValue, by simp [get, hk, nullValue], by simp [nullValue, Value.typ]⟩
      | some v =>
        exact ⟨bulkString v, by simp [get, hk, bulkString], by simp [bulkString, Value.typ]⟩
  · intro args hlen
    match args, hlen with
    | [a, b], _ =>
      cases hh : mapGet st.HSETs a.bulk with
      | none => exact ⟨nullValue, by simp [hget, hh, nullValue], by simp [nullValue, Value.typ]⟩
      | some m =>
        cases hf : mapGet m b.bulk with
        | none => exact ⟨nullValue, by simp [hget, hh, hf, nullValue], by simp [nullValue, Value.typ]⟩
        | some v =>
          exact ⟨bulkString v, by simp [hget, hh, hf, bulkString], by simp [bulkString, Value.typ]⟩

/-- Claim C6 (HGETALL returns the hash as flattened pairs). When the `range` loop visits
every entry of a map exactly once and the keys of hash `h` are distinct, `hgetall [h]`
replies an Array and leaves the store alone; the Array is empty when `h` does not exist;
otherwise, for a hash of `n` entries, it has `2 * n` elements, all bulk strings, its
pairs (element `2i`, element `2i+1`) are the (field, value) entries of the hash in some
order, and no field occurs twice. -/
theorem hgetall_flattened_pairs (env : Env) (st : Store) (h : Bytes)
    (hrange : ∀ m, (env.rangeOrder m).Perm m)
    (hwf : ∀ m, mapGet st.HSETs h = some m → mapWF m) :
    ∃ arr, hgetall env [bulkString h] st = .ok (arrayValue arr, st) ∧
      (h ∉ mapKeys st.HSETs → arr = []) ∧
      (∀ m, mapGet st.HSETs h = some m →
        arr.length = 2 * m.length ∧
        (∀ x ∈ arr, ∃ b, x = bulkString b) ∧
        (pairUp arr).Perm (m.map (fun e => (bulkString e.1, bulkString e.2))) ∧
        ((pairUp arr).map Prod.fst).Nodup) := by
  simp only [← mapGet_eq_none_iff]
  cases hh : mapGet st.HSETs h with
  | none =>
    exact ⟨[], by simp [hgetall, bulkString, Value.bulk, hh, arrayValue], by simp, by simp⟩
  | some m =>
    refine ⟨hgetallLoop (env.rangeOrder m),
      by simp [hgetall, bulkString, Value.bulk, hh, arrayValue], by simp, ?_⟩
    intro m2 hm2
    simp only [Option.some.injEq] at hm2
    subst hm2
    refine ⟨?_, hgetallLoop_bulk _, ?_, ?_⟩
    · rw [length_hgetallLoop, (hrange m).length_eq]
    · rw [pairUp_hgetallLoop]
      exact (hrange m).map _
    · rw [pairUp_hgetallLoop, List.map_map]
      have hnd : ((env.rangeOrder m).map Prod.fst).Nodup :=
        ((hrange m).map Prod.fst).nodup_iff.mpr (hwf m hh)
      have := hnd.map bulkString_injective
      simpa [List.map_map, Function.comp_def] using this

/-- Witness of C6: the hash `h` with the fields `f1`, `f2`, visited in stored order. -/
theorem hgetall_flattened_pairs_witness :
    ∃ arr, hgetall Env.plain [bulkString (ascii "h")]
        (Store.mk [] [(ascii "h", [(ascii "f1", ascii "v1"), (ascii "f2", ascii "v2")])])
        = .ok (arrayValue arr,
          Store.mk [] [(ascii "h", [(ascii "f1", ascii "v1"), (ascii "f2", ascii "v2")])]) ∧
      (ascii "h" ∉ mapKeys (Store.mk [] [(ascii "h", [(ascii "f1", ascii "v1"),
          (ascii "f2", ascii "v2")])]).HSETs → arr = []) ∧
      (∀ m, mapGet (Store.mk [] [(ascii "h", [(ascii "f1", ascii "v1"),
          (ascii "f2", ascii "v2")])]).HSETs (ascii "h") = some m →
        arr.length = 2 * m.length ∧
        (∀ x ∈ arr, ∃ b, x = bulkString b) ∧
        (pairUp arr).Perm (m.map (fun e => (bulkString e.1, bulkString e.2))) ∧
        ((pairUp arr).map Prod.fst).Nodup) :=
  hgetall_flattened_pairs Env.plain _ (ascii "h")
    (fun m => List.Perm.refl m)
    (fun m hm => by
      have h1 : mapGet (Store.mk [] [(ascii "h", [(ascii "f1", ascii "v1"),
          (ascii "f2", ascii "v2")])]).HSETs (ascii "h")
          = some [(ascii "f1", ascii "v1"), (ascii "f2", ascii "v2")] := by decide
      rw [h1] at hm
      simp only [Option.some.injEq] at hm
      subst hm
      unfold mapWF mapKeys
      decide)

/-- No handler panics: on every argument list each returns a reply. -/
theorem arity_total (env : Env) (args : List Value) (st : Store) :
    (set args st).isOk = true ∧ (get args st).isOk = true ∧ (hset args st).isOk = true ∧
    (hget args st).isOk = true ∧ (hgetall env args st).isOk = true := by
  refine ⟨?_, ?_, ?_, ?_, ?_⟩
  · rcases args with _ | ⟨a, _ | ⟨b, _ | ⟨c, l⟩⟩⟩ <;> simp [set, Res.isOk]
  · rcases args with _ | ⟨a, _ | ⟨b, l⟩⟩ <;> simp [get, Res.isOk]
    cases mapGet st.SETs a.bulk <;> simp
  · rcases args with _ | ⟨a, _ | ⟨b, _ | ⟨c, _ | ⟨d, l⟩⟩⟩⟩ <;> simp [hset, Res.isOk]
  · rcases args with _ | ⟨a, _ | ⟨b, _ | ⟨c, l⟩⟩⟩ <;> simp [hget, Res.isOk]
    cases mapGet st.HSETs a.bulk with
    | none => simp
    | some m => rcases hx : mapGet m b.bulk with _ | w <;> simp [hx]
  · rcases args with _ | ⟨a, _ | ⟨b, l⟩⟩ <;> simp [hgetall, Res.isOk]
    cases mapGet st.HSETs a.bulk <;> simp

/-- Counterexample to claim C7 as stated: `ping` with two arguments, a length outside its
documented arity, replies the simple string of its first argument, not an Error. -/
theorem ping_two_arguments_no_error :
    [bulkString (ascii "a"), bulkString (ascii "b")].length = 2 ∧
    ping [bulkString (ascii "a"), bulkString (ascii "b")] Store.empty
      = .ok (simpleString (ascii "a"), Store.empty) ∧
    (simpleString (ascii "a")).typ ≠ "error" := by
  refine ⟨rfl, rfl, by decide⟩

/-- Claim C7, amended (arity enforcement). `set`, `get`, `hset`, `hget` and `hgetall`
reply their Error value, and leave the store alone, on every argument list whose length
is not their arity; `ping` never replies an Error: with no argument it replies the simple
string `PONG`, with one or more arguments the simple string whose payload is the payload
of its first argument, and it leaves the store alone; and no handler panics on any
argument list. -/
theorem arity_enforcement (env : Env) (args : List Value) (st : Store) :
    (args.length ≠ 2 → set args st = .ok (errorValue
      (ascii "ERR wrong number of arguments for \x27set\x27 command"), st)) ∧
    (args.length ≠ 1 → get args st = .ok (errorValue
      (ascii "ERR wrong number of arguments for \x27get\x27 command"), st)) ∧
    (args.length ≠ 3 → hset args st = .ok (errorValue
      (ascii "ERR wrong number of arguments for \x27hset\x27 command"), st)) ∧
    (args.length ≠ 2 → hget args st = .ok (errorValue
      (ascii "ERR wrong number of arguments for \x27hget\x27 command"), st)) ∧
    (args.length ≠ 1 → hgetall env args st = .ok (errorValue
      (ascii "ERR wrong number of arguments for \x27hgetall\x27 command"), st)) ∧
    (args = [] → ping args st = .ok (simpleString (ascii "PONG"), st)) ∧
    (∀ first others, args = first :: others →
      ping args st = .ok (simpleString first.bulk, st)) ∧
    (∃ reply, ping args st = .ok (reply, st) ∧ reply.typ = "string") ∧
    (set args st).isOk = true ∧ (get args st).isOk = true ∧ (hset args st).isOk = true ∧
    (hget args st).isOk = true ∧ (hgetall env args st).isOk = true := by
  refine ⟨?_, ?_, ?_, ?_, ?_, ?_, ?_, ?_, arity_total env args st⟩
  · intro h
    simp [set, h, errorValue]
  · intro h
    simp [get, h, errorValue]
  · intro h
    simp [hset, h, errorValue]
  · intro h
    simp [hget, h, errorValue]
  · intro h
    simp [hgetall, h, errorValue]
  · intro h
    subst h
    rfl
  · intro first others h
    subst h
    simp [ping, simpleString]
  · rcases args with _ | ⟨a, l⟩
    · exact ⟨_, rfl, rfl⟩
    · exact ⟨Value.mk "string" a.bulk 0 [] [], by simp [ping], rfl⟩

/-- Claim C8 (PING). In every store, `ping []` replies the simple string `PONG` and
`ping [a]` for a bulk string `a` replies the simple string of the payload of `a`; both
return the store they were given, and neither reply is an Error. -/
theorem ping_pong_or_echo (st : Store) (a : Bytes) :
    ping [] st = .ok (simpleString (ascii "PONG"), st) ∧
    ping [bulkString a] st = .ok (simpleString a, st) ∧
    (simpleString (ascii "PONG")).typ ≠ "error" ∧ (simpleString a).typ ≠ "error" := by
  refine ⟨rfl, by simp [ping, bulkString, simpleString, Value.bulk], by decide, ?_⟩
  simp [simpleString, Value.typ]

/-- Claim C9 (store isolation). On every argument list, the reply of `set` and of `get`
and the flat map they leave are the same for every hash map, and the hash map is
returned as it was; the reply of `hset`, `hget` and `hgetall` and the hash map they
leave are the same for every flat map, and the flat map is returned as it was. -/
theorem store_isolation (env : Env) (args : List Value) :
    (∀ sets, ∃ reply sets1, ∀ hsets,
      set args (Store.mk sets hsets) = .ok (reply, Store.mk sets1 hsets)) ∧
    (∀ sets, ∃ reply sets1, ∀ hsets,
      get args (Store.mk sets hsets) = .ok (reply, Store.mk sets1 hsets)) ∧
    (∀ hsets, ∃ reply hsets1, ∀ sets,
      hset args (Store.mk sets hsets) = .ok (reply, Store.mk sets hsets1)) ∧
    (∀ hsets, ∃ reply hsets1, ∀ sets,
      hget args (Store.mk sets hsets) = .ok (reply, Store.mk sets hsets1)) ∧
    (∀ hsets, ∃ reply hsets1, ∀ sets,
      hgetall env args (Store.mk sets hsets) = .ok (reply, Store.mk sets hsets1)) := by
  refine ⟨?_, ?_, ?_, ?_, ?_⟩
  · intro sets
    by_cases h : args.length = 2
    · match args, h with
      | [a, b], _ => exact ⟨_, mapSet sets a.bulk b.bulk, fun hsets => by simp [set]; rfl⟩
    · exact ⟨_, sets, fun hsets => by simp [set, h]; rfl⟩
  · intro sets
    by_cases h : args.length = 1
    · match args, h with
      | [a], _ =>
        cases hk : mapGet sets a.bulk with
        | none => exact ⟨_, sets, fun hsets => by simp [get, hk]; rfl⟩
        | some v => exact ⟨_, sets, fun hsets => by simp [get, hk]; rfl⟩
    · exact ⟨_, sets, fun hsets => by simp [get, h]; rfl⟩
  · intro hsets
    by_cases h : args.length = 3
    · match args, h with
      | [a, b, c], _ =>
        exact ⟨Value.mk "string" (ascii "OK") 0 [] [], mapSet hsets a.bulk (mapSet
          (match mapGet hsets a.bulk with
            | some m => m
            | none => []) b.bulk c.bulk), fun sets => by simp [hset]⟩
    · exact ⟨_, hsets, fun sets => by simp [hset, h]; rfl⟩
  · intro hsets
    by_cases h : args.length = 2
    · match args, h with
      | [a, b], _ =>
        cases hh : mapGet hsets a.bulk with
        | none => exact ⟨_, hsets, fun sets => by simp [hget, hh]; rfl⟩
        | some m =>
          cases hf : mapGet m b.bulk with
          | none => exact ⟨_, hsets, fun sets => by simp [hget, hh, hf]; rfl⟩
          | some v => exact ⟨_, hsets, fun sets => by simp [hget, hh, hf]; rfl⟩
    · exact ⟨_, hsets, fun sets => by simp [hget, h]; rfl⟩
  · intro hsets
    by_cases h : args.length = 1
    · match args, h with
      | [a], _ =>
        cases hh : mapGet hsets a.bulk with
        | none => exact ⟨_, hsets, fun sets => by simp [hgetall, hh]; rfl⟩
        | some m => exact ⟨_, hsets, fun sets => by simp [hgetall, hh]; rfl⟩
    · exact ⟨_, hsets, fun sets => by simp [hgetall, h]; rfl⟩

/-! ## Dispatch -/

theorem upperByte_lt (c : Nat) (h : c < 128) : upperByte c < 128 := by
  unfold upperByte
  split <;> omega

theorem upperByte_not_lower (c : Nat) : ¬ (97 ≤ upperByte c ∧ upperByte c ≤ 122) := by
  unfold upperByte
  split <;> omega

/-- Upper-casing is idempotent on a name of ASCII bytes, whatever the runtime does with
other names. -/
theorem ToUpper_idem_ascii (env : Env) (s : Bytes) (h : ∀ c ∈ s, c < 128) :
    ToUpper env (ToUpper env s) = ToUpper env s := by
  have hall : s.all (fun c => decide (c < 128)) = true := by
    simpa [List.all_eq_true] using h
  have key : ∀ t : Bytes, (∀ c ∈ t, c < 128) →
      (∀ c ∈ t, ¬ (97 ≤ c ∧ c ≤ 122)) → ToUpper env t = t := by
    intro t h1 h2
    have a1 : t.all (fun c => decide (c < 128)) = true := by
      simpa [List.all_eq_true] using h1
    have a2 : t.any (fun c => decide (97 ≤ c ∧ c ≤ 122)) = false := by
      rw [← Bool.not_eq_true, List.any_eq_true]
      rintro ⟨c, hc, hd⟩
      exact h2 c hc (of_decide_eq_true hd)
    simp only [ToUpper, a1, a2, if_true, Bool.false_eq_true, if_false]
  by_cases hl : s.any (fun c => decide (97 ≤ c ∧ c ≤ 122)) = true
  · have e : ToUpper env s = s.map upperByte := by
      simp only [ToUpper, hall, hl, if_true]
    rw [e]
    apply key
    · intro c hc
      obtain ⟨d, hd, rfl⟩ := List.mem_map.mp hc
      exact upperByte_lt d (h d hd)
    · intro c hc
      obtain ⟨d, hd, rfl⟩ := List.mem_map.mp hc
      exact upperByte_not_lower d
  · have e : ToUpper env s = s := by
      simp only [ToUpper, hall, hl, if_true, if_false, Bool.false_eq_true]
    rw [e, e]

theorem formatBits_digits (fuel n : Nat) (acc : Bytes) (h : n < fuel) :
    ∃ ds, formatBits fuel n acc = ds ++ acc ∧ ds ≠ [] ∧ ∀ d ∈ ds, 48 ≤ d ∧ d ≤ 57 := by
  induction fuel generalizing n acc with
  | zero => omega
  | succ fuel ih =>
    unfold formatBits
    split
    · refine ⟨[48 + n], rfl, by simp, ?_⟩
      intro d hd
      simp only [List.mem_singleton] at hd
      omega
    · have hlt : n / 10 < fuel := by omega
      obtain ⟨ds, e, _, hd⟩ := ih (n / 10) ((48 + n % 10) :: acc) hlt
      refine ⟨ds ++ [48 + n % 10], by simp [e], by simp, ?_⟩
      intro d hmem
      simp only [List.mem_append, List.mem_singleton] at hmem
      rcases hmem with hmem | hmem
      · exact hd d hmem
      · omega

/-- Parsing the digits that `formatBits` produced gives the number back. -/
theorem parseUintLoop_formatBits (fuel n : Nat) (acc : Bytes) (h : n < fuel)
    (hn : n < 9223372036854775808) :
    parseUintLoop (formatBits fuel n acc) 0 = parseUintLoop acc n := by
  induction fuel generalizing n acc with
  | zero => omega
  | succ fuel ih =>
    unfold formatBits
    split
    · rename_i hlt
      have h1 : 48 + n ≤ 57 := by omega
      have h2 : ¬ (18446744073709551616 ≤ n) := by omega
      simp [parseUintLoop, h1, h2]
    · rename_i hge
      rw [ih (n / 10) _ (by omega) (by omega)]
      have h1 : 48 + n % 10 ≤ 57 := by omega
      have h0 : ¬ (1844674407370955162 ≤ n / 10) := by omega
      have h2 : ¬ (18446744073709551616 ≤ n) := by omega
      have h3 : n / 10 * 10 + n % 10 = n := by omega
      simp [parseUintLoop, h1, h0, h2, h3]

theorem Itoa_natCast (n : Nat) : Itoa (n : Int) = formatBits (n + 1) n [] := rfl

theorem Itoa_nat_digits (n : Nat) :
    Itoa (n : Int) ≠ [] ∧ ∀ d ∈ Itoa (n : Int), 48 ≤ d ∧ d ≤ 57 := by
  obtain ⟨ds, e, hne, hd⟩ := formatBits_digits (n + 1) n [] (by omega)
  rw [Itoa_natCast, e]
  simpa using ⟨hne, hd⟩

/-- `ParseInt` reads back what `Itoa` wrote for a length. -/
theorem ParseInt_Itoa (n : Nat) (hn : n < 9223372036854775808) :
    ParseInt (Itoa (n : Int)) = .ok (n : Int) := by
  obtain ⟨hne, hd⟩ := Itoa_nat_digits n
  have hp := parseUintLoop_formatBits (n + 1) n [] (by omega) hn
  rw [← Itoa_natCast] at hp
  cases hI : Itoa (n : Int) with
  | nil => exact absurd hI hne
  | cons c cs =>
    rw [hI] at hp hd
    have hc := hd c (by simp)
    have hc1 : ¬ (c = 43) := by omega
    have hc2 : ¬ (c = 45) := by omega
    have hn2 : ¬ (9223372036854775808 ≤ n) := by omega
    simp [ParseInt, ParseUint, hc1, hc2, hp, parseUintLoop, hn2]

/-! ## Allocation -/

/-- A slice of `n` elements whose size stays within the limit is allocated. -/
theorem makeslice_natCast (size n : Nat) (h : size * n ≤ maxAlloc) :
    makeslice size (n : Int) = .ok n := by
  have h1 : ¬ ((n : Int) < 0) := by omega
  have h2 : ¬ ((maxAlloc : Int) < (size : Int) * (n : Int)) := by
    have h3 : ((size * n : Nat) : Int) ≤ (maxAlloc : Int) := by exact_mod_cast h
    rw [Nat.cast_mul] at h3
    omega
  simp [makeslice, h1, h2]

/-- A negative length panics. -/
theorem makeslice_neg (size : Nat) (i : Int) (h : i < 0) : makeslice size i = .panic := by
  simp [makeslice, h]

/-- The two outcomes of `make`: a panic, or a slice of the length asked for. -/
theorem makeslice_outcome (size : Nat) (i : Int) :
    makeslice size i = .panic ∨
    (makeslice size i = .ok i.toNat ∧ 0 ≤ i ∧ (size : Int) * i ≤ (maxAlloc : Int)) := by
  unfold makeslice
  split_ifs with h
  · exact Or.inl rfl
  · exact Or.inr ⟨rfl, by omega, by omega⟩

/-! ## Reading from the buffer -/

theorem cr_check (line : Bytes) (b : Nat) :
    ((line ++ [b]).length ≥ 2 ∧ (line ++ [b])[(line ++ [b]).length - 2]? = some CR) ↔
      line.getLast? = some CR := by
  rcases List.eq_nil_or_concat line with rfl | ⟨l, x, rfl⟩
  · simp
  · simp only [List.concat_eq_append]
    have e : (l ++ [x] ++ [b]).length - 2 = l.length := by simp
    have e2 : (l ++ [x] ++ [b])[l.length]? = some x := by
      rw [List.append_assoc, List.getElem?_append_right (le_refl _)]
      simp
    rw [e, e2]
    simp

/-- On a buffer that starts with a line `l` free of `'\r'`, then `'\r'` and one more byte,
the loop of `readLine` returns `l` and consumes exactly these bytes. -/
theorem readLineLoop_buffered (l : Bytes) (c : Nat) (rest src : Bytes) (hl : CR ∉ l) :
    ∀ (fuel : Nat) (line : Bytes) (size : Nat), l.length + 2 ≤ fuel →
      line.getLast? ≠ some CR →
      readLineLoop fuel (Reader.mk (l ++ CR :: c :: rest) src) line size
        = .ok (line ++ l, size + l.length + 2, Reader.mk rest src) := by
  induction l with
  | nil =>
    intro fuel line size hf hlast
    obtain ⟨f, rfl⟩ : ∃ f, fuel = f + 2 := ⟨fuel - 2, by omega⟩
    have h2 : (line ++ [CR]).getLast? = some CR := by simp
    simp only [readLineLoop, Reader.ReadByte, List.nil_append, cr_check, hlast, if_false, h2,
      if_true]
    simp
  | cons x l ih =>
    intro fuel line size hf hlast
    obtain ⟨f, rfl⟩ : ∃ f, fuel = f + 1 := ⟨fuel - 1, by omega⟩
    have hx : x ≠ CR := fun e => hl (by simp [e])
    have hl2 : CR ∉ l := fun e => hl (by simp [e])
    have h2 : (line ++ [x]).getLast? ≠ some CR := by simp [hx]
    simp only [readLineLoop, Reader.ReadByte, List.cons_append, cr_check, hlast, if_false]
    rw [ih hl2 f (line ++ [x]) (size + 1) (by simp only [List.length_cons] at hf; omega) h2]
    have e : size + 1 + l.length + 2 = size + (l.length + 1) + 2 := by omega
    simp [e]

theorem readLine_buffered (l : Bytes) (c : Nat) (rest src : Bytes) (hl : CR ∉ l) :
    readLine (Reader.mk (l ++ CR :: c :: rest) src)
      = .ok (l, l.length + 2, Reader.mk rest src) := by
  unfold readLine
  rw [readLineLoop_buffered l c rest src hl _ [] 0 (by simp [Reader.rest]) (by simp)]
  simp

/-- A `Read` of as many bytes as the buffer holds, or fewer, returns exactly them. -/
theorem Read_buffered (b rest src : Bytes) :
    (Reader.mk (b ++ rest) src).Read b.length = .ok (b, Reader.mk rest src) := by
  cases b with
  | nil => simp [Reader.Read]
  | cons x b => simp [Reader.Read]

theorem readInteger_buffered (n : Nat) (hn : n < 9223372036854775808) (c : Nat)
    (rest src : Bytes) :
    readInteger (Reader.mk (Itoa (n : Int) ++ CR :: c :: rest) src)
      = .ok ((n : Int), (Itoa (n : Int)).length + 2, Reader.mk rest src) := by
  have hcr : CR ∉ Itoa (n : Int) := by
    intro hmem
    have := (Itoa_nat_digits n).2 CR hmem
    simp [CR] at this
  simp [readInteger, readLine_buffered _ c rest src hcr, ParseInt_Itoa n hn]

theorem readBulk_buffered (b rest src : Bytes) (hb : b.length ≤ 3518437208883) :
    readBulk (Reader.mk (Itoa (b.length : Int) ++ CR :: LF :: (b ++ CR :: LF :: rest)) src)
      = .ok (bulkString b, Reader.mk rest src) := by
  have hline := readLine_buffered [] LF rest src (by simp)
  simp only [List.nil_append] at hline
  have hmake := makeslice_natCast 1 b.length (by simp only [maxAlloc]; omega)
  simp [readBulk, readInteger_buffered b.length (by omega), hmake, Read_buffered, hline,
    bulkString]

/-! ## Round trip on the request grammar -/

theorem Marshal_length_pos : ∀ (v : Value), isRequestValue v = true → 1 ≤ (Marshal v).length
  | .mk typ str num bulk array, hv => by
    unfold isRequestValue at hv
    unfold Marshal
    split at hv
    · rename_i ht
      subst ht
      simp [marshalBulk]
    · split at hv
      · rename_i ht
        subst ht
        simp
      · exact absurd hv (by simp)

theorem length_le_marshalElems : ∀ (vs : List Value), areRequestValues vs = true →
    vs.length ≤ (marshalElems vs).length
  | [], _ => by simp [marshalElems]
  | v :: vs, hv => by
    simp only [areRequestValues, Bool.and_eq_true] at hv
    have h1 := Marshal_length_pos v hv.1
    have h2 := length_le_marshalElems vs hv.2
    simp only [marshalElems, List.length_cons, List.length_append]
    omega

mutual
/-- Reading back an encoded value of the request grammar that lies whole in the buffer
returns the value and consumes exactly its encoding. -/
theorem ReadFuel_Marshal : ∀ (v : Value), isRequestValue v = true →
    ∀ (fuel : Nat) (rest src : Bytes), (Marshal v).length ≤ fuel →
      (Marshal v).length ≤ 3518437208883 →
      ReadFuel fuel (Reader.mk (Marshal v ++ rest) src) = .ok (v, Reader.mk rest src)
  | .mk typ str num bulk array, hv, fuel, rest, src, hf, hb => by
    have hpos := Marshal_length_pos _ hv
    obtain ⟨f, rfl⟩ : ∃ f, fuel = f + 1 := ⟨fuel - 1, by omega⟩
    unfold isRequestValue at hv
    unfold Marshal at hf hb ⊢
    split at hv
    · rename_i ht
      subst ht
      simp only [Bool.and_eq_true, decide_eq_true_eq, List.isEmpty_iff] at hv
      obtain ⟨⟨rfl, rfl⟩, rfl⟩ := hv
      simp only [String.reduceEq, if_false, if_true, marshalBulk, Value.bulk, List.length_append,
        List.length_cons, List.length_nil] at hf hb ⊢
      have hbl : bulk.length ≤ 3518437208883 := by omega
      have := readBulk_buffered bulk rest src hbl
      simp only [ReadFuel, Reader.ReadByte, BULK, ARRAY, List.cons_append, List.nil_append,
        List.append_assoc, Res.ok_bind, CR, LF] at this ⊢
      simp [this, bulkString]
    · split at hv
      · rename_i ht
        subst ht
        simp only [Bool.and_eq_true, decide_eq_true_eq] at hv
        obtain ⟨⟨⟨rfl, rfl⟩, rfl⟩, hvs⟩ := hv
        simp only [if_true, List.length_append, List.length_cons, List.length_nil] at hf hb ⊢
        have hlen := length_le_marshalElems array hvs
        have hal : array.length < 9223372036854775808 := by omega
        have hloop := readArrayLoop_Marshal array hvs f rest src (by omega) (by omega)
        have hint := readInteger_buffered array.length hal LF (marshalElems array ++ rest) src
        have hmake := makeslice_natCast sizeofValue array.length (by
          simp only [sizeofValue, maxAlloc]; omega)
        simp only [ReadFuel, Reader.ReadByte, ARRAY, List.cons_append, List.nil_append,
          List.append_assoc, Res.ok_bind, CR, LF, if_true, readArray] at hint ⊢
        simp [hint, hmake, hloop]
      · exact absurd hv (by simp)
/-- The element loop reads back the encoded elements that lie whole in the buffer. -/
theorem readArrayLoop_Marshal : ∀ (vs : List Value), areRequestValues vs = true →
    ∀ (fuel : Nat) (rest src : Bytes), (marshalElems vs).length ≤ fuel →
      (marshalElems vs).length ≤ 3518437208883 →
      readArrayLoop (ReadFuel fuel) vs.length (Reader.mk (marshalElems vs ++ rest) src)
        = .ok (vs, Reader.mk rest src)
  | [], _, fuel, rest, src, _, _ => by
    simp [readArrayLoop, marshalElems]
  | v :: vs, hv, fuel, rest, src, hf, hb => by
    simp only [areRequestValues, Bool.and_eq_true] at hv
    simp only [marshalElems, List.length_append] at hf hb
    have h1 := ReadFuel_Marshal v hv.1 fuel (marshalElems vs ++ rest) src (by omega) (by omega)
    have h2 := readArrayLoop_Marshal vs hv.2 fuel rest src (by omega) (by omega)
    simp [readArrayLoop, marshalElems, h1, h2]
end

theorem Read_Marshal_buffered (v : Value) (hv : isRequestValue v = true) (rest src : Bytes)
    (hb : (Marshal v).length ≤ 3518437208883) :
    Read (Reader.mk (Marshal v ++ rest) src) = .ok (v, Reader.mk rest src) := by
  unfold Read
  exact ReadFuel_Marshal v hv _ rest src (by simp [Reader.rest]; omega) hb

theorem ReadByte_new (s : Bytes) (h : s.length ≤ defaultBufSize) :
    (Reader.new s).ReadByte = (Reader.mk s []).ReadByte := by
  cases s with
  | nil => rfl
  | cons b bs =>
    simp only [Reader.ReadByte, Reader.new, List.take_of_length_le h, List.drop_of_length_le h]

theorem ReadFuel_new (fuel : Nat) (s : Bytes) (h : s.length ≤ defaultBufSize) :
    ReadFuel fuel (Reader.new s) = ReadFuel fuel (Reader.mk s []) := by
  cases fuel with
  | zero => rfl
  | succ f => simp only [ReadFuel, ReadByte_new s h]

/-- Claim C1, amended (round trip). For every value built of bulk strings and arrays of
such values whose encoding is at most `defaultBufSize` bytes long, `Read` on a fresh
reader over `Marshal v` returns `v` and leaves nothing unread. -/
theorem read_marshal_round_trip (v : Value) (hv : isRequestValue v = true)
    (hsize : (Marshal v).length ≤ defaultBufSize) :
    Read (Reader.new (Marshal v)) = .ok (v, Reader.mk [] []) := by
  have h := Read_Marshal_buffered v hv [] [] (by unfold defaultBufSize at hsize; omega)
  simp only [List.append_nil] at h
  unfold Read at h ⊢
  rw [ReadFuel_new _ _ hsize]
  simpa [Reader.rest, Reader.new] using h

/-- Witness of C1: the request `SET a 1`. -/
theorem read_marshal_round_trip_witness :
    Read (Reader.new (Marshal (arrayValue
        [bulkString (ascii "SET"), bulkString (ascii "a"), bulkString (ascii "1")])))
      = .ok (arrayValue [bulkString (ascii "SET"), bulkString (ascii "a"),
          bulkString (ascii "1")], Reader.mk [] []) :=
  read_marshal_round_trip _ (by decide) (by decide)

/-- Counterexample to claim C1 as stated: on the encoding `+OK\r\n` of the simple string
`OK`, `Read` consumes the `+`, returns the zero `Value` without error and leaves
`OK\r\n` unread; the zero value is not the simple string. The same happens on the
encodings of an Error and of an Integer. -/
theorem simple_string_round_trip_fails :
    Read (Reader.new (Marshal (simpleString (ascii "OK"))))
      = .ok (Value.zero, Reader.mk (ascii "OK" ++ [CR, LF]) []) ∧
    Value.zero.typ ≠ (simpleString (ascii "OK")).typ ∧
    Read (Reader.new (Marshal (errorValue (ascii "ERR"))))
      = .ok (Value.zero, Reader.mk (ascii "ERR" ++ [CR, LF]) []) ∧
    Read (Reader.new (Marshal (integerValue 7)))
      = .ok (Value.zero, Reader.mk (ascii "7" ++ [CR, LF]) []) := by
  refine ⟨by rfl, by decide, by rfl, by rfl⟩

/-! ## Bulk strings that are only partly buffered -/

theorem readLine_new (s : Bytes) (h : s.length ≤ defaultBufSize) :
    readLine (Reader.mk [] s) = readLine (Reader.mk s []) := by
  have e := ReadByte_new s h
  simp only [Reader.new] at e
  simp only [readLine, Reader.rest, List.nil_append, List.append_nil, readLineLoop, e]

/-- A `Read` of more bytes than the buffer holds returns the buffered bytes followed by
the zero bytes that `make` put in the slice. -/
theorem Read_short (x : Nat) (buf src : Bytes) (n : Nat) (hn : buf.length + 1 ≤ n) :
    (Reader.mk (x :: buf) src).Read n
      = .ok (x :: buf ++ List.replicate (n - (buf.length + 1)) 0, Reader.mk [] src) := by
  have h0 : n ≠ 0 := by omega
  have ht : (x :: buf).take n = x :: buf := List.take_of_length_le (by simpa using hn)
  have hd : (x :: buf).drop n = [] := List.drop_of_length_le (by simpa using hn)
  simp only [Reader.Read, h0, if_false, ht, hd, List.length_cons]

/-- When the buffer holds only the first part `x :: p1` of a payload of declared length `n`,
`readBulk` returns that part filled up with zero bytes, and reads on to the next `'\r'`
for the end of the value. -/
theorem readBulk_short (n : Nat) (x : Nat) (p1 p2 : Bytes) (c : Nat) (rest : Bytes)
    (hn : n ≤ 3518437208883) (hp : p1.length + 1 ≤ n) (hcr : CR ∉ p2)
    (hsz : (p2 ++ CR :: c :: rest).length ≤ defaultBufSize) :
    readBulk (Reader.mk (Itoa (n : Int) ++ CR :: LF :: x :: p1) (p2 ++ CR :: c :: rest))
      = .ok (bulkString (x :: p1 ++ List.replicate (n - (p1.length + 1)) 0),
          Reader.mk rest []) := by
  have hline : readLine (Reader.mk [] (p2 ++ CR :: c :: rest))
      = .ok (p2, p2.length + 2, Reader.mk rest []) := by
    rw [readLine_new _ hsz]
    exact readLine_buffered p2 c rest [] hcr
  have hmake := makeslice_natCast 1 n (by simp only [maxAlloc]; omega)
  simp [readBulk, readInteger_buffered n (by omega), hmake, Read_short x p1 _ n hp, hline,
    bulkString]

/-! ## Replay of a value larger than the rest of the buffer -/

theorem ReadByte_new_split (b : Nat) (l r : Bytes) (h : l.length + 1 = defaultBufSize) :
    (Reader.new (b :: (l ++ r))).ReadByte = .ok (b, Reader.mk l r) := by
  simp only [Reader.ReadByte, Reader.new, ← h, List.take_succ_cons, List.drop_succ_cons,
    List.take_left, List.drop_left]

theorem bigSetHead_eq : bigSetHead = Itoa ((3 : Nat) : Int) ++ CR :: LF ::
    (Marshal (bulkString (ascii "SET")) ++ (Marshal (bulkString (ascii "a")) ++
      (BULK :: (Itoa ((4090 : Nat) : Int) ++ [CR, LF])))) := by
  decide

/-- The encoding of `SET a v` for a value `v = x :: p1 ++ p2` of 4090 bytes, cut where the
first fill of the buffer ends. -/
theorem Marshal_set_4090 (x : Nat) (p1 p2 : Bytes) (h1 : p1.length = 4068)
    (h2 : p2.length = 21) :
    Marshal (arrayValue [bulkString (ascii "SET"), bulkString (ascii "a"),
        bulkString (x :: p1 ++ p2)])
      = ARRAY :: ((bigSetHead ++ x :: p1) ++ (p2 ++ [CR, LF])) := by
  have i3 : Itoa (3 : Int) = [51] := by decide
  have i1 : Itoa (1 : Int) = [49] := by decide
  have i4090 : Itoa (4090 : Int) = [52, 48, 57, 48] := by decide
  have a1 : ascii "SET" = [83, 69, 84] := by decide
  have a2 : ascii "a" = [97] := by decide
  have a3 : bigSetHead = [51, 13, 10, 36, 51, 13, 10, 83, 69, 84, 13, 10, 36, 49, 13, 10, 97,
      13, 10, 36, 52, 48, 57, 48, 13, 10] := by decide
  rw [a3]
  simp [arrayValue, bulkString, Marshal, marshalElems, marshalBulk, Value.bulk,
    i3, i1, i4090, a1, a2, ARRAY, BULK, CR, LF, h1, h2]

/-- Reading back the encoding of `SET a v`, `v` of 4090 bytes, from the start of a file:
the value comes back with its last 21 bytes replaced by zero bytes. -/
theorem Read_set_4090 (x : Nat) (p1 p2 : Bytes) (h1 : p1.length = 4068)
    (h2 : p2.length = 21) (hcr : CR ∉ p2) :
    Read (Reader.new (Marshal (arrayValue [bulkString (ascii "SET"), bulkString (ascii "a"),
        bulkString (x :: p1 ++ p2)])))
      = .ok (arrayValue [bulkString (ascii "SET"), bulkString (ascii "a"),
          bulkString (x :: p1 ++ List.replicate 21 0)], Reader.mk [] []) := by
  have hlen : bigSetHead.length = 26 := by decide
  have hM := Marshal_set_4090 x p1 p2 h1 h2
  have hfill := ReadByte_new_split ARRAY (bigSetHead ++ x :: p1) (p2 ++ [CR, LF]) (by
      simp [hlen, h1, defaultBufSize])
  have hhead : bigSetHead ++ x :: p1
      = Itoa ((3 : Nat) : Int) ++ CR :: LF ::
        (Marshal (bulkString (ascii "SET")) ++ (Marshal (bulkString (ascii "a")) ++
          (BULK :: (Itoa ((4090 : Nat) : Int) ++ CR :: LF :: x :: p1)))) := by
    rw [bigSetHead_eq]
    simp
  have r1 := ReadFuel_Marshal (bulkString (ascii "SET")) (by decide) 4119
    (Marshal (bulkString (ascii "a")) ++
      (BULK :: (Itoa ((4090 : Nat) : Int) ++ CR :: LF :: x :: p1)))
    (p2 ++ [CR, LF]) (by decide) (by decide)
  have r2 := ReadFuel_Marshal (bulkString (ascii "a")) (by decide) 4119
    (BULK :: (Itoa ((4090 : Nat) : Int) ++ CR :: LF :: x :: p1))
    (p2 ++ [CR, LF]) (by decide) (by decide)
  have r3 : ReadFuel 4119 (Reader.mk
      (BULK :: (Itoa ((4090 : Nat) : Int) ++ CR :: LF :: x :: p1)) (p2 ++ [CR, LF]))
      = .ok (bulkString (x :: p1 ++ List.replicate 21 0), Reader.mk [] []) := by
    have hs := readBulk_short 4090 x p1 p2 LF [] (by decide) (by omega) hcr
      (by simp [defaultBufSize, h2])
    rw [show (4119 : Nat) = 4118 + 1 from rfl, ReadFuel]
    simp only [h1] at hs
    have e1 : ¬ (BULK = ARRAY) := by decide
    simp only [Reader.ReadByte, Res.ok_bind, e1, if_false, if_true, hs]
  have hint := readInteger_buffered 3 (by decide) LF
    (Marshal (bulkString (ascii "SET")) ++ (Marshal (bulkString (ascii "a")) ++
      (BULK :: (Itoa ((4090 : Nat) : Int) ++ CR :: LF :: x :: p1))))
    (p2 ++ [CR, LF])
  have hL : (ARRAY :: ((bigSetHead ++ x :: p1) ++ (p2 ++ [CR, LF]))).length = 4119 := by
    simp [hlen, h1, h2]
  rw [hM]
  unfold Read
  simp only [Reader.rest, Reader.new, List.nil_append, hL]
  rw [ReadFuel]
  simp only [Reader.new] at hfill
  rw [hfill]
  simp only [Res.ok_bind, if_true, readArray, hhead, hint]
  have hmake := makeslice_natCast sizeofValue 3 (by decide)
  simp only [hmake, readArrayLoop, r1, r2, r3, Res.ok_bind, Res.pure_eq]
  rfl

theorem ToUpper_SET (env : Env) : ToUpper env (ascii "SET") = ascii "SET" := rfl

theorem Read_empty : Read (Reader.mk [] []) = .err .EOF := rfl

theorem replay_set_4090 (env : Env) (x : Nat) (p1 p2 : Bytes) (h1 : p1.length = 4068)
    (h2 : p2.length = 21) (hcr : CR ∉ p2) :
    replay env (Marshal (arrayValue [bulkString (ascii "SET"), bulkString (ascii "a"),
        bulkString (x :: p1 ++ p2)]))
      = .ok (Store.mk [(ascii "a", x :: p1 ++ List.replicate 21 0)] []) := by
  have hR := Read_set_4090 x p1 p2 h1 h2 hcr
  have hL : (Marshal (arrayValue [bulkString (ascii "SET"), bulkString (ascii "a"),
      bulkString (x :: p1 ++ p2)])).length = 4118 + 1 := by
    have hlen : bigSetHead.length = 26 := by decide
    rw [Marshal_set_4090 x p1 p2 h1 h2]
    simp [hlen, h1, h2]
  have hcb : replayCallback env (arrayValue [bulkString (ascii "SET"), bulkString (ascii "a"),
      bulkString (x :: p1 ++ List.replicate 21 0)]) Store.empty
      = .ok (Store.mk [(ascii "a", x :: p1 ++ List.replicate 21 0)] []) := by
    have hH : Handlers env (ascii "SET") = some set := rfl
    simp only [replayCallback, arrayValue, Value.array, index_zero, Res.ok_bind, bulkString,
      Value.bulk, ToUpper_SET, hH, List.drop_succ_cons, List.drop_zero]
    rfl
  simp only [replay, aofRead, hL, aofReadLoop, hR, hcb, Res.ok_bind, Read_empty, Res.pure_eq]

/-- Claim C2 at its failing input. The request `SET a v`, `v` of 4090 bytes `x`, served
from the empty store and log, leaves `a ↦ v` in the flat map and its encoding in the
log; replay of that log leaves `a` mapped to the first 4069 bytes of `v` followed by 21
zero bytes, which is a different value. -/
theorem replay_truncates_large_value (env : Env) :
    handleValues env [bigSet] Server.init
      = .ok (Server.mk (Store.mk [(ascii "a", List.replicate 4090 120)] [])
          (Marshal bigSet) (Marshal (simpleString (ascii "OK")))) ∧
    replay env (Marshal bigSet)
      = .ok (Store.mk [(ascii "a", List.replicate 4069 120 ++ List.replicate 21 0)] []) ∧
    List.replicate 4069 120 ++ List.replicate 21 0 ≠ List.replicate 4090 120 := by
  refine ⟨?_, ?_, ?_⟩
  · have hH : Handlers env (ascii "SET") = some set := rfl
    have hc : ascii "SET" = ascii "SET" ∨ ascii "SET" = ascii "HSET" ∨ ascii "SET" = ascii "DEL" :=
      Or.inl rfl
    simp only [handleValues, handleValue, bigSet, arrayValue, Value.typ, Value.array, ne_eq,
      not_true_eq_false, if_false, List.length_cons, Nat.add_one_ne_zero, index_zero,
      Res.ok_bind, bulkString, Value.bulk, ToUpper_SET, hH, hc, if_true, List.drop_succ_cons,
      List.drop_zero, set, index_one, Res.pure_eq, List.length_nil]
    rfl
  · have e : List.replicate 4090 120
        = 120 :: List.replicate 4068 120 ++ List.replicate 21 120 := by
      rw [← List.replicate_succ, List.append_replicate_replicate]
    have e2 : List.replicate 4069 120 = 120 :: List.replicate 4068 120 :=
      List.replicate_succ 120 4068
    rw [bigSet, e, e2]
    exact replay_set_4090 env 120 (List.replicate 4068 120) (List.replicate 21 120)
      (List.length_replicate _ _) (List.length_replicate _ _)
      (fun h => absurd (List.eq_of_mem_replicate h) (by decide))
  · intro h
    have h0 : (0 : Nat) ∈ List.replicate 4069 120 ++ List.replicate 21 0 :=
      List.mem_append_right _ (List.mem_replicate.mpr ⟨by decide, rfl⟩)
    rw [h] at h0
    exact absurd (List.eq_of_mem_replicate h0) (by decide)

/-- Scenario 4 of the specification: the request `SET a 1` is logged, replay of the log
into the empty store maps `a` to `1`, and `GET a` on that store replies the bulk string
`1`, encoded `$1\r\n1\r\n`. -/
theorem replay_set_a_1 :
    (handleValues Env.plain [setA1] Server.init).bind (fun s => replay Env.plain s.aof)
      = .ok (Store.mk [(ascii "a", ascii "1")] []) ∧
    get [bulkString (ascii "a")] (Store.mk [(ascii "a", ascii "1")] [])
      = .ok (bulkString (ascii "1"), Store.mk [(ascii "a", ascii "1")] []) ∧
    Marshal (bulkString (ascii "1")) = ascii "$1\r\n1\r\n" := by
  refine ⟨by decide, by rfl, by decide⟩

/-! ## The recursion bounds are never reached -/

theorem ReadByte_rest (r r1 : Reader) (b : Nat) (h : r.ReadByte = .ok (b, r1)) :
    r.rest = b :: r1.rest := by
  obtain ⟨buf, src⟩ := r
  cases buf with
  | cons x xs =>
    simp only [Reader.ReadByte, Res.ok.injEq, Prod.mk.injEq] at h
    obtain ⟨rfl, rfl⟩ := h
    rfl
  | nil =>
    simp only [Reader.ReadByte] at h
    rcases ht : src.take defaultBufSize with _ | ⟨y, ys⟩
    · simp [ht] at h
    · simp only [ht, Res.ok.injEq, Prod.mk.injEq] at h
      obtain ⟨rfl, rfl⟩ := h
      have := List.take_append_drop defaultBufSize src
      rw [ht] at this
      simpa [Reader.rest] using this.symm

theorem ReadByte_outcome (r : Reader) :
    (∃ b r1, r.ReadByte = .ok (b, r1)) ∨ r.ReadByte = .err .EOF := by
  obtain ⟨buf, src⟩ := r
  cases buf with
  | cons x xs => exact Or.inl ⟨x, _, rfl⟩
  | nil =>
    simp only [Reader.ReadByte]
    rcases ht : src.take defaultBufSize with _ | ⟨y, ys⟩
    · exact Or.inr rfl
    · exact Or.inl ⟨y, _, rfl⟩

theorem readLineLoop_total (fuel : Nat) :
    ∀ (r : Reader) (line : Bytes) (size : Nat), r.rest.length < fuel →
      readLineLoop fuel r line size = .err .EOF ∨
      ∃ l sz r1, readLineLoop fuel r line size = .ok (l, sz, r1) ∧
        r1.rest.length < r.rest.length := by
  induction fuel with
  | zero =>
    intro r line size h
    omega
  | succ fuel ih =>
    intro r line size h
    rw [readLineLoop]
    rcases ReadByte_outcome r with ⟨b, r1, hb⟩ | hb
    · have hrest := ReadByte_rest r r1 b hb
      have hlt : r1.rest.length < r.rest.length := by simp [hrest]
      simp only [hb]
      split_ifs
      · exact Or.inr ⟨_, _, r1, rfl, hlt⟩
      · rcases ih r1 (line ++ [b]) (size + 1) (by omega) with he | ⟨l, sz, r2, he, h2⟩
        · exact Or.inl he
        · exact Or.inr ⟨l, sz, r2, he, by omega⟩
    · simp only [hb]
      exact Or.inl trivial

theorem readLine_total (r : Reader) :
    readLine r = .err .EOF ∨
    ∃ l sz r1, readLine r = .ok (l, sz, r1) ∧ r1.rest.length < r.rest.length :=
  readLineLoop_total _ r [] 0 (by omega)

theorem ParseInt_outcome (s : Bytes) : (∃ i, ParseInt s = .ok i) ∨ ∃ e, ParseInt s = .err e := by
  have hloop : ∀ (cs : Bytes) (n : Nat),
      (∃ m, parseUintLoop cs n = .ok m) ∨ ∃ e, parseUintLoop cs n = .err e := by
    intro cs
    induction cs with
    | nil => exact fun n => Or.inl ⟨n, rfl⟩
    | cons c cs ih =>
      intro n
      simp only [parseUintLoop]
      split_ifs
      · exact Or.inr ⟨_, rfl⟩
      · exact Or.inr ⟨_, rfl⟩
      · exact ih _
      · exact Or.inr ⟨_, rfl⟩
  have hu : ∀ cs : Bytes, (∃ m, ParseUint cs = .ok m) ∨ ∃ e, ParseUint cs = .err e := by
    intro cs
    unfold ParseUint
    split_ifs
    · exact Or.inr ⟨_, rfl⟩
    · exact hloop cs 0
  cases s with
  | nil => exact Or.inr ⟨_, rfl⟩
  | cons c cs =>
    simp only [ParseInt]
    rcases hu (if c = 43 ∨ c = 45 then cs else c :: cs) with ⟨m, hm⟩ | ⟨e, he⟩
    · simp only [hm]
      split_ifs
      · exact Or.inr ⟨_, rfl⟩
      · exact Or.inr ⟨_, rfl⟩
      · exact Or.inl ⟨_, rfl⟩
      · exact Or.inl ⟨_, rfl⟩
    · simp only [he]
      exact Or.inr ⟨e, rfl⟩

theorem readInteger_total (r : Reader) :
    (∃ e, readInteger r = .err e) ∨
    ∃ i sz r1, readInteger r = .ok (i, sz, r1) ∧ r1.rest.length < r.rest.length := by
  unfold readInteger
  rcases readLine_total r with he | ⟨l, sz, r1, he, hlt⟩
  · exact Or.inl ⟨.EOF, by simp [he]⟩
  · rcases ParseInt_outcome l with ⟨i, hi⟩ | ⟨e, hi⟩
    · exact Or.inr ⟨i, sz, r1, by simp [he, hi], hlt⟩
    · exact Or.inl ⟨e, by simp [he, hi]⟩

theorem Reader_Read_total (r : Reader) (n : Nat) :
    r.Read n = .err .EOF ∨
    ∃ p r1, r.Read n = .ok (p, r1) ∧ r1.rest.length ≤ r.rest.length := by
  obtain ⟨buf, src⟩ := r
  by_cases h0 : n = 0
  · exact Or.inr ⟨[], _, by simp [Reader.Read, h0], le_refl _⟩
  · cases buf with
    | nil =>
      by_cases h1 : src = []
      · exact Or.inl (by simp [Reader.Read, h0, h1])
      · by_cases h2 : defaultBufSize ≤ n
        · refine Or.inr ⟨_, _, by simp only [Reader.Read, h0, h1, h2, if_false, if_true]; rfl, ?_⟩
          simp [Reader.rest]
        · refine Or.inr ⟨_, _, by simp only [Reader.Read, h0, h1, h2, if_false]; rfl, ?_⟩
          simp only [Reader.rest, List.length_append, List.length_drop, List.length_take,
            List.nil_append]
          omega
    | cons x xs =>
      refine Or.inr ⟨_, _, by simp only [Reader.Read, h0, if_false]; rfl, ?_⟩
      simp only [Reader.rest, List.length_append, List.length_drop, List.length_cons]
      omega

theorem readBulk_total (r : Reader) : Advances (readBulk r) r := by
  unfold readBulk Advances
  rcases readInteger_total r with ⟨e, he⟩ | ⟨i, sz, r1, he, hlt⟩
  · exact Or.inr (Or.inl ⟨e, by simp [he]⟩)
  · simp only [he, Res.ok_bind]
    rcases makeslice_outcome 1 i with hm | ⟨hm, _, _⟩
    · exact Or.inl (by simp [hm])
    · simp only [hm, Res.ok_bind]
      rcases Reader_Read_total r1 i.toNat with hr | ⟨p, r2, hr, hle⟩
      · exact Or.inr (Or.inl ⟨.EOF, by simp [hr]⟩)
      · simp only [hr, Res.ok_bind]
        rcases readLine_total r2 with hl | ⟨l, sz2, r3, hl, hlt2⟩
        · exact Or.inr (Or.inl ⟨.EOF, by simp [hl]⟩)
        · exact Or.inr (Or.inr ⟨Value.mk "bulk" [] 0 p [], r3, by simp [hl], by omega⟩)

theorem readArrayLoop_total (read : Reader → Res (Value × Reader)) (bound : Nat)
    (hread : ∀ r0 : Reader, r0.rest.length ≤ bound → Advances (read r0) r0) :
    ∀ (n : Nat) (r : Reader), r.rest.length ≤ bound →
      readArrayLoop read n r = .panic ∨ (∃ e, readArrayLoop read n r = .err e) ∨
      ∃ vs r1, readArrayLoop read n r = .ok (vs, r1) ∧ r1.rest.length ≤ r.rest.length := by
  intro n
  induction n with
  | zero =>
    intro r _
    exact Or.inr (Or.inr ⟨[], r, rfl, le_refl _⟩)
  | succ n ih =>
    intro r hr
    rw [readArrayLoop]
    rcases hread r hr with hp | ⟨e, he⟩ | ⟨v, r1, hv, hlt⟩
    · exact Or.inl (by simp [hp])
    · exact Or.inr (Or.inl ⟨e, by simp [he]⟩)
    · simp only [hv, Res.ok_bind]
      rcases ih r1 (by omega) with hp | ⟨e, he⟩ | ⟨vs, r2, hvs, hle⟩
      · exact Or.inl (by simp [hp])
      · exact Or.inr (Or.inl ⟨e, by simp [he]⟩)
      · exact Or.inr (Or.inr ⟨v :: vs, r2, by simp [hvs], by omega⟩)

theorem readArray_total (read : Reader → Res (Value × Reader)) (r : Reader)
    (hread : ∀ r0 : Reader, r0.rest.length ≤ r.rest.length → Advances (read r0) r0) :
    Advances (readArray read r) r := by
  unfold readArray Advances
  rcases readInteger_total r with ⟨e, he⟩ | ⟨i, sz, r1, he, hlt⟩
  · exact Or.inr (Or.inl ⟨e, by simp [he]⟩)
  · simp only [he, Res.ok_bind]
    rcases makeslice_outcome sizeofValue i with hm | ⟨hm, _, _⟩
    · exact Or.inl (by simp [hm])
    · simp only [hm, Res.ok_bind]
      rcases readArrayLoop_total read r.rest.length hread i.toNat r1 (by omega) with
        hp | ⟨e, he2⟩ | ⟨vs, r2, hvs, hle⟩
      · exact Or.inl (by simp [hp])
      · exact Or.inr (Or.inl ⟨e, by simp [he2]⟩)
      · exact Or.inr (Or.inr ⟨Value.mk "array" [] 0 [] vs, r2, by simp [hvs], by omega⟩)

/-- With more fuel than bytes left, `ReadFuel` never runs out of fuel, and a value it
returns has consumed at least one byte. -/
theorem ReadFuel_total (fuel : Nat) :
    ∀ r : Reader, r.rest.length < fuel → Advances (ReadFuel fuel r) r := by
  induction fuel with
  | zero =>
    intro r h
    omega
  | succ fuel ih =>
    intro r h
    rw [ReadFuel]
    rcases ReadByte_outcome r with ⟨b, r1, hb⟩ | hb
    · have hrest := ReadByte_rest r r1 b hb
      have hlen : r.rest.length = r1.rest.length + 1 := by simp [hrest]
      simp only [hb, Res.ok_bind]
      split_ifs with h1 h2
      · rcases readArray_total (ReadFuel fuel) r1 (fun r0 h0 => ih r0 (by omega)) with
          hp | ⟨e, he⟩ | ⟨v, r2, hv, hlt⟩
        · exact Or.inl hp
        · exact Or.inr (Or.inl ⟨e, he⟩)
        · exact Or.inr (Or.inr ⟨v, r2, hv, by omega⟩)
      · rcases readBulk_total r1 with hp | ⟨e, he⟩ | ⟨v, r2, hv, hlt⟩
        · exact Or.inl hp
        · exact Or.inr (Or.inl ⟨e, he⟩)
        · exact Or.inr (Or.inr ⟨v, r2, hv, by omega⟩)
      · exact Or.inr (Or.inr ⟨Value.zero, r1, rfl, by omega⟩)
    · exact Or.inr (Or.inl ⟨.EOF, by simp [hb]⟩)

/-- `Read` always ends in a panic, an error or a value, and a value has consumed at least
one byte. -/
theorem Read_total (r : Reader) : Advances (Read r) r :=
  ReadFuel_total _ r (by omega)

theorem handler_outcome (env : Env) (command : Bytes) (handler : Handler)
    (hH : Handlers env command = some handler) (args : List Value) (st : Store) :
    ∃ p, handler args st = .ok p := by
  have hok : ∀ x : Res (Value × Store), x.isOk = true → ∃ p, x = .ok p := by
    intro x hx
    cases x <;> simp [Res.isOk] at hx
    exact ⟨_, rfl⟩
  have ha := arity_total env args st
  unfold Handlers at hH
  split_ifs at hH <;> simp only [Option.some.injEq] at hH <;> subst hH
  · rcases args with _ | ⟨a, l⟩
    · exact ⟨_, rfl⟩
    · exact ⟨_, by simp [ping]; rfl⟩
  · exact hok _ ha.1
  · exact hok _ ha.2.1
  · exact hok _ ha.2.2.1
  · exact hok _ ha.2.2.2.1
  · exact hok _ ha.2.2.2.2

theorem replayCallback_outcome (env : Env) (value : Value) (st : Store) :
    replayCallback env value st = .panic ∨ ∃ st1, replayCallback env value st = .ok st1 := by
  unfold replayCallback
  rcases hv : value.array with _ | ⟨a, args⟩
  · exact Or.inl (by simp [index])
  · simp only [index_zero, Res.ok_bind, List.drop_succ_cons, List.drop_zero]
    rcases hH : Handlers env (ToUpper env a.bulk) with _ | handler
    · exact Or.inr ⟨st, rfl⟩
    · obtain ⟨p, hp⟩ := handler_outcome env _ handler hH args st
      exact Or.inr ⟨p.2, by simp [hp]⟩

/-- The loop of `AOF.Read` with the replay callback never runs out of fuel when it has
more fuel than bytes to read. -/
theorem aofReadLoop_total (env : Env) (fuel : Nat) :
    ∀ (r : Reader) (st : Store), r.rest.length < fuel →
      aofReadLoop (replayCallback env) fuel r st = .panic ∨
      ∃ x, aofReadLoop (replayCallback env) fuel r st = .ok x := by
  induction fuel with
  | zero =>
    intro r st h
    omega
  | succ fuel ih =>
    intro r st h
    rw [aofReadLoop]
    rcases Read_total r with hp | ⟨e, he⟩ | ⟨v, r1, hv, hlt⟩
    · exact Or.inl (by simp [hp])
    · cases e <;> simp only [he] <;> exact Or.inr ⟨_, rfl⟩
    · simp only [hv]
      rcases replayCallback_outcome env v st with hc | ⟨st1, hc⟩
      · exact Or.inl (by simp [hc])
      · simp only [hc, Res.ok_bind]
        exact ih r1 st1 (by omega)

/-- Replay of any log file ends: with the store it built, or in a panic. -/
theorem replay_total (env : Env) (file : Bytes) :
    replay env file = .panic ∨ ∃ st, replay env file = .ok st := by
  unfold replay aofRead
  rcases aofReadLoop_total env (file.length + 1) (Reader.new file) Store.empty
      (by simp [Reader.new, Reader.rest]) with hp | ⟨x, hx⟩
  · exact Or.inl (by simp [hp])
  · exact Or.inr ⟨x.1, by simp [hx]⟩

/-! ## Replay of a log that fits the buffer -/

theorem ping_store (args : List Value) (st st1 : Store) (r : Value)
    (h : ping args st = .ok (r, st1)) : st1 = st := by
  rcases args with _ | ⟨a, l⟩ <;> simp [ping] at h <;> exact h.2.symm

theorem get_store (args : List Value) (st st1 : Store) (r : Value)
    (h : get args st = .ok (r, st1)) : st1 = st := by
  rcases args with _ | ⟨a, _ | ⟨b, l⟩⟩
  · simp [get] at h
    exact h.2.symm
  · simp only [get, List.length_singleton, ne_eq, not_true_eq_false, if_false, index_zero,
      Res.ok_bind] at h
    rcases hx : mapGet st.SETs a.bulk with _ | w <;> rw [hx] at h <;> simp at h <;>
      exact h.2.symm
  · simp [get] at h
    exact h.2.symm

theorem hget_store (args : List Value) (st st1 : Store) (r : Value)
    (h : hget args st = .ok (r, st1)) : st1 = st := by
  rcases args with _ | ⟨a, _ | ⟨b, _ | ⟨c, l⟩⟩⟩
  · simp [hget] at h
    exact h.2.symm
  · simp [hget] at h
    exact h.2.symm
  · simp only [hget, List.length_cons, List.length_nil, ne_eq, not_true_eq_false, if_false,
      index_zero, index_one, Res.ok_bind] at h
    rcases hx : (match mapGet st.HSETs a.bulk with
      | some m => mapGet m b.bulk
      | none => none) with _ | w <;> rw [hx] at h <;> simp at h <;> exact h.2.symm
  · simp [hget] at h
    exact h.2.symm

theorem hgetall_store (env : Env) (args : List Value) (st st1 : Store) (r : Value)
    (h : hgetall env args st = .ok (r, st1)) : st1 = st := by
  rcases args with _ | ⟨a, _ | ⟨b, l⟩⟩
  · simp [hgetall] at h
    exact h.2.symm
  · simp only [hgetall, List.length_singleton, ne_eq, not_true_eq_false, if_false, index_zero,
      Res.ok_bind] at h
    rcases hx : mapGet st.HSETs a.bulk with _ | w <;> rw [hx] at h <;> simp at h <;>
      exact h.2.symm
  · simp [hgetall] at h
    exact h.2.symm

/-- A handler of a command that is not logged leaves the store as it was. -/
theorem unlogged_handler_store (env : Env) (command : Bytes) (handler : Handler)
    (hH : Handlers env command = some handler)
    (hc : ¬ (command = ascii "SET" ∨ command = ascii "HSET" ∨ command = ascii "DEL"))
    (args : List Value) (st st1 : Store) (r : Value) (h : handler args st = .ok (r, st1)) :
    st1 = st := by
  unfold Handlers at hH
  split_ifs at hH with h1 h2 h3 h4 h5 h6
  · simp only [Option.some.injEq] at hH
    subst hH
    exact ping_store args st st1 r h
  · exact absurd (Or.inl h2) hc
  · simp only [Option.some.injEq] at hH
    subst hH
    exact get_store args st st1 r h
  · exact absurd (Or.inr (Or.inl h4)) hc
  · simp only [Option.some.injEq] at hH
    subst hH
    exact hget_store args st st1 r h
  · simp only [Option.some.injEq] at hH
    subst hH
    exact hgetall_store env args st st1 r h

/-- One turn of the connection loop either leaves log and store alone, or appends the
request to the log and changes the store as the replay callback does on that request. -/
theorem handleValue_logged (env : Env) (val : Value) (s s1 : Server)
    (h : handleValue env val s = .ok s1) :
    (s1.aof = s.aof ∧ s1.store = s.store) ∨
    (s1.aof = s.aof ++ Marshal val ∧ replayCallback env val s.store = .ok s1.store) := by
  unfold handleValue at h
  split_ifs at h with h1 h2
  · simp only [Res.ok.injEq] at h
    subst h
    exact Or.inl ⟨rfl, rfl⟩
  · simp only [Res.ok.injEq] at h
    subst h
    exact Or.inl ⟨rfl, rfl⟩
  · rcases hv : val.array with _ | ⟨a, args⟩
    · simp [hv] at h2
    · rw [hv] at h
      simp only [index_zero, Res.ok_bind, List.drop_succ_cons, List.drop_zero] at h
      rcases hH : Handlers env (ToUpper env a.bulk) with _ | handler
      · rw [hH] at h
        simp only [Res.pure_eq, Res.ok.injEq] at h
        subst h
        exact Or.inl ⟨rfl, rfl⟩
      · rw [hH] at h
        simp only at h
        rcases hr : handler args s.store with ⟨result, store1⟩ | e | _ | _
        · rw [hr] at h
          simp only [Res.ok_bind, Res.pure_eq, Res.ok.injEq] at h
          subst h
          by_cases hc : ToUpper env a.bulk = ascii "SET" ∨ ToUpper env a.bulk = ascii "HSET" ∨
              ToUpper env a.bulk = ascii "DEL"
          · refine Or.inr ⟨by simp only [hc, if_true], ?_⟩
            simp only [replayCallback, hv, index_zero, Res.ok_bind, List.drop_succ_cons,
              List.drop_zero, hH, hr, Res.pure_eq]
          · refine Or.inl ⟨by simp only [hc, if_false], ?_⟩
            exact unlogged_handler_store env _ handler hH hc args s.store store1 result hr
        · rw [hr] at h
          simp at h
        · rw [hr] at h
          simp at h
        · rw [hr] at h
          simp at h

theorem aofReadLoop_succ (cb : Value → Store → Res Store) (n : Nat) :
    ∀ (r : Reader) (st : Store) (x : Store × Option Err),
      aofReadLoop cb n r st = .ok x → aofReadLoop cb (n + 1) r st = .ok x := by
  induction n with
  | zero =>
    intro r st x h
    simp [aofReadLoop] at h
  | succ n ih =>
    intro r st x h
    rw [aofReadLoop] at h ⊢
    rcases hr : Read r with ⟨val, r1⟩ | e | _ | _
    · simp only [hr] at h ⊢
      rcases hc : cb val st with st1 | e | _ | _
      · simp only [hc, Res.ok_bind] at h ⊢
        exact ih r1 st1 x h
      · simp [hc] at h
      · simp [hc] at h
      · simp [hc] at h
    · cases e <;> simp only [hr] at h ⊢ <;> exact h
    · simp [hr] at h
    · simp [hr] at h

theorem aofReadLoop_add (cb : Value → Store → Res Store) (n k : Nat) (r : Reader) (st : Store)
    (x : Store × Option Err) (h : aofReadLoop cb n r st = .ok x) :
    aofReadLoop cb (n + k) r st = .ok x := by
  induction k with
  | zero => exact h
  | succ k ih => exact aofReadLoop_succ cb (n + k) r st x ih

/-- Serving requests appends to the log a piece `l` such that reading `l` back from the
buffer takes the store from where the serving began to where it ended. -/
theorem handleValues_replay (env : Env) :
    ∀ (reqs : List Value) (s0 s1 : Server), (∀ v ∈ reqs, isRequestValue v = true) →
      handleValues env reqs s0 = .ok s1 →
      ∃ l, s1.aof = s0.aof ++ l ∧
        (l.length ≤ 3518437208883 → ∀ (n : Nat) (tail : Bytes) (fin : Store × Option Err),
          aofReadLoop (replayCallback env) n (Reader.mk tail []) s1.store = .ok fin →
          aofReadLoop (replayCallback env) (n + l.length) (Reader.mk (l ++ tail) []) s0.store
            = .ok fin) := by
  intro reqs
  induction reqs with
  | nil =>
    intro s0 s1 _ h
    simp only [handleValues, Res.ok.injEq] at h
    subst h
    exact ⟨[], by simp, fun _ n tail fin hfin => by simpa using hfin⟩
  | cons val reqs ih =>
    intro s0 s1 hreq h
    rw [handleValues] at h
    rcases hv : handleValue env val s0 with s2 | e | _ | _
    · rw [hv] at h
      simp only [Res.ok_bind] at h
      obtain ⟨l2, hl2, hrep⟩ := ih s2 s1 (fun v hm => hreq v (List.mem_cons_of_mem _ hm)) h
      rcases handleValue_logged env val s0 s2 hv with ⟨ha, hs⟩ | ⟨ha, hcb⟩
      · refine ⟨l2, by rw [hl2, ha], ?_⟩
        rw [← hs]
        exact hrep
      · refine ⟨Marshal val ++ l2, by rw [hl2, ha, List.append_assoc], ?_⟩
        intro hlen n tail fin hfin
        have hval := hreq val (List.mem_cons_self _ _)
        have hpos := Marshal_length_pos val hval
        simp only [List.length_append] at hlen ⊢
        have hread := Read_Marshal_buffered val hval (l2 ++ tail) [] (by omega)
        have hrest := hrep (by omega) n tail fin hfin
        have hfuel : n + ((Marshal val).length + l2.length)
            = (n + l2.length + ((Marshal val).length - 1)) + 1 := by omega
        rw [hfuel, aofReadLoop, List.append_assoc, hread]
        simp only [hcb, Res.ok_bind]
        exact aofReadLoop_add _ _ _ _ _ _ hrest
    · rw [hv] at h
      simp at h
    · rw [hv] at h
      simp at h
    · rw [hv] at h
      simp at h

theorem Read_new (s : Bytes) (h : s.length ≤ defaultBufSize) :
    Read (Reader.new s) = Read (Reader.mk s []) := by
  unfold Read
  rw [ReadFuel_new _ _ h]
  simp [Reader.rest, Reader.new]

/-- Replay reconstructs the store when the log fits the buffer of the reader: after
serving requests of the request grammar from the empty store and log, replay of a log
of at most `defaultBufSize` bytes returns the store that the serving left. -/
theorem replay_small_log (env : Env) (reqs : List Value) (s : Server)
    (hreq : ∀ v ∈ reqs, isRequestValue v = true)
    (hrun : handleValues env reqs Server.init = .ok s)
    (hsmall : s.aof.length ≤ defaultBufSize) :
    replay env s.aof = .ok s.store := by
  obtain ⟨l, hl, hrep⟩ := handleValues_replay env reqs Server.init s hreq hrun
  simp only [Server.init, List.nil_append] at hl hrep
  rw [hl] at hsmall ⊢
  have hend : aofReadLoop (replayCallback env) 1 (Reader.mk [] []) s.store
      = .ok (s.store, none) := by
    rw [aofReadLoop, Read_empty]
  have h := hrep (by unfold defaultBufSize at hsmall; omega) 1 [] (s.store, none) hend
  simp only [List.append_nil] at h
  rw [Nat.add_comm 1 l.length, aofReadLoop] at h
  simp only [replay, aofRead]
  rw [aofReadLoop, Read_new l hsmall]
  rcases hr : Read (Reader.mk l []) with ⟨val, r1⟩ | e | _ | _
  · simp only [hr] at h ⊢
    rcases hc : replayCallback env val Store.empty with st1 | e | _ | _
    · simp only [hc, Res.ok_bind] at h ⊢
      rw [h]
      rfl
    · simp [hc] at h
    · simp [hc] at h
    · simp [hc] at h
  · cases e <;> simp only [hr] at h ⊢ <;> rw [h] <;> rfl
  · simp [hr] at h
  · simp [hr] at h

/-! ## Unknown commands and unknown type bytes -/

/-- The turn of the loop on a request Array whose first element, upper-cased, is none of
`PING`, `SET`, `GET`, `HSET`, `HGET`, `HGETALL`: it writes exactly `+\r\n` to the client
and leaves the store and the log as they were. -/
theorem handleValue_unknown (env : Env) (val first : Value) (args : List Value)
    (s : Server) (htyp : val.typ = "array") (harr : val.array = first :: args)
    (hcmd : ToUpper env first.bulk ∉ [ascii "PING", ascii "SET", ascii "GET", ascii "HSET",
      ascii "HGET", ascii "HGETALL"]) :
    handleValue env val s = .ok (Server.mk s.store s.aof (s.out ++ ascii "+\r\n")) := by
  have hH : Handlers env (ToUpper env first.bulk) = none := by
    simp only [List.mem_cons, List.mem_singleton, List.not_mem_nil, or_false, not_or] at hcmd
    obtain ⟨h1, h2, h3, h4, h5, h6⟩ := hcmd
    simp only [Handlers, h1, h2, h3, h4, h5, h6, if_false]
  have hreply : Marshal (Value.mk "string" [] 0 [] []) = ascii "+\r\n" := by decide
  simp only [handleValue, htyp, harr, ne_eq, not_true_eq_false, if_false, List.length_cons,
    Nat.add_one_ne_zero, index_zero, Res.ok_bind, hH, Res.pure_eq, hreply]

/-- The body of the loop ends without error and without panic on every value. -/
theorem handleValue_outcome (env : Env) (val : Value) (s : Server) :
    ∃ s1, handleValue env val s = .ok s1 := by
  unfold handleValue
  by_cases htyp : val.typ ≠ "array"
  · exact ⟨s, by rw [if_pos htyp]⟩
  · rw [if_neg htyp]
    rcases harr : val.array with _ | ⟨first, args⟩
    · exact ⟨s, by simp⟩
    · simp only [List.length_cons, Nat.add_one_ne_zero, if_false, index_zero, Res.ok_bind,
        List.drop_succ_cons, List.drop_zero]
      rcases hH : Handlers env (ToUpper env first.bulk) with _ | handler
      · exact ⟨_, rfl⟩
      · obtain ⟨p, hp⟩ := handler_outcome env _ handler hH args s.store
        simp only [hp, Res.ok_bind, Res.pure_eq]
        exact ⟨_, rfl⟩

/-- A value read from a fresh reader over the connection leaves less on the connection
than there was. -/
theorem Read_new_src_lt (conn : Bytes) (val : Value) (r1 : Reader)
    (h : Read (Reader.new conn) = .ok (val, r1)) : r1.src.length < conn.length := by
  rcases Read_total (Reader.new conn) with hp | ⟨e, he⟩ | ⟨v, r2, hv, hlt⟩
  · rw [h] at hp
    cases hp
  · rw [h] at he
    cases he
  · rw [h] at hv
    simp only [Res.ok.injEq, Prod.mk.injEq] at hv
    obtain ⟨_, rfl⟩ := hv
    simp only [Reader.rest, Reader.new, List.nil_append, List.length_append] at hlt
    omega

/-- With more fuel than bytes on the connection the loop of `handleConnection` does not
depend on the fuel. -/
theorem handleConnectionLoop_fuel (env : Env) (n : Nat) :
    ∀ (m : Nat) (conn : Bytes) (s : Server), conn.length < n → conn.length < m →
      handleConnectionLoop env n conn s = handleConnectionLoop env m conn s := by
  induction n with
  | zero =>
    intro m conn s h
    omega
  | succ n ih =>
    intro m conn s hn hm
    obtain ⟨k, rfl⟩ : ∃ k, m = k + 1 := ⟨m - 1, by omega⟩
    rw [handleConnectionLoop, handleConnectionLoop]
    rcases hr : Read (Reader.new conn) with ⟨val, r1⟩ | e | _ | _
    · have hlt := Read_new_src_lt conn val r1 hr
      obtain ⟨s1, hs1⟩ := handleValue_outcome env val s
      simp only [hs1, Res.ok_bind]
      exact ih k r1.src s1 (by omega) (by omega)
    · rfl
    · rfl
    · rfl

/-- The handler ends, in a state or in a panic of `Read`, on every connection. -/
theorem handleConnection_total (env : Env) (conn : Bytes) (s : Server) :
    handleConnection env conn s = .panic ∨ ∃ s1, handleConnection env conn s = .ok s1 := by
  unfold handleConnection
  generalize hn : conn.length + 1 = n
  have hlt : conn.length < n := by omega
  clear hn
  induction n generalizing conn s with
  | zero => omega
  | succ n ih =>
    rw [handleConnectionLoop]
    rcases hr : Read (Reader.new conn) with ⟨val, r1⟩ | e | _ | _
    · have hlt2 := Read_new_src_lt conn val r1 hr
      obtain ⟨s1, hs1⟩ := handleValue_outcome env val s
      simp only [hs1, Res.ok_bind]
      exact ih r1.src s1 (by omega)
    · exact Or.inr ⟨s, rfl⟩
    · exact Or.inl rfl
    · have := Read_total (Reader.new conn)
      rw [hr] at this
      rcases this with h | ⟨e, h⟩ | ⟨v, r2, h, _⟩ <;> cases h

/-- A turn of the loop of `handleConnection`: after a value was read and served, the
handler goes on with what the connection had not yet handed to the reader of this turn;
what that reader had in its buffer is not looked at again. -/
theorem handleConnection_turn (env : Env) (conn : Bytes) (s s1 : Server) (val : Value)
    (r1 : Reader) (hread : Read (Reader.new conn) = .ok (val, r1))
    (hval : handleValue env val s = .ok s1) :
    handleConnection env conn s = handleConnection env r1.src s1 := by
  have hlt := Read_new_src_lt conn val r1 hread
  unfold handleConnection
  rw [handleConnectionLoop]
  simp only [hread, hval, Res.ok_bind]
  exact handleConnectionLoop_fuel env _ _ r1.src s1 hlt (by omega)

/-- After an unknown command the handler stays in its loop: it has written `+\r\n`, left
the store and the log as they were, and goes on to read from the connection. -/
theorem handleConnection_unknown (env : Env) (conn : Bytes) (s : Server) (val first : Value)
    (args : List Value) (r1 : Reader) (hread : Read (Reader.new conn) = .ok (val, r1))
    (htyp : val.typ = "array") (harr : val.array = first :: args)
    (hcmd : ToUpper env first.bulk ∉ [ascii "PING", ascii "SET", ascii "GET", ascii "HSET",
      ascii "HGET", ascii "HGETALL"]) :
    handleConnection env conn s
      = handleConnection env r1.src (Server.mk s.store s.aof (s.out ++ ascii "+\r\n")) :=
  handleConnection_turn env conn s _ val r1 hread
    (handleValue_unknown env val first args s htyp harr hcmd)

/-- Claim C11 at its failing input. The client sends the request `UNKNOWN` and the request
`PING` in one piece, `*1\r\n$7\r\nUNKNOWN\r\n*1\r\n$4\r\nPING\r\n`. The first turn of
the connection handler reads `UNKNOWN` with the `PING` already in the buffer of its
reader, writes `+\r\n` and leaves the store and the log unchanged; the next turn reads
with a new reader and finds the connection empty, so the handler ends having written
`+\r\n` only, and the `PING` is never answered. The same `PING` sent alone is answered
with `+PONG\r\n`, and the two requests served in turn get `+\r\n` and `+PONG\r\n`. -/
theorem unknown_command_drops_next_request :
    Marshal (arrayValue [bulkString (ascii "UNKNOWN")])
        ++ Marshal (arrayValue [bulkString (ascii "PING")])
      = ascii "*1\r\n$7\r\nUNKNOWN\r\n*1\r\n$4\r\nPING\r\n" ∧
    Read (Reader.new (ascii "*1\r\n$7\r\nUNKNOWN\r\n*1\r\n$4\r\nPING\r\n"))
      = .ok (arrayValue [bulkString (ascii "UNKNOWN")],
          Reader.mk (ascii "*1\r\n$4\r\nPING\r\n") []) ∧
    handleConnection Env.plain (ascii "*1\r\n$7\r\nUNKNOWN\r\n*1\r\n$4\r\nPING\r\n")
        Server.init
      = .ok (Server.mk Store.empty [] (ascii "+\r\n")) ∧
    handleConnection Env.plain (ascii "*1\r\n$4\r\nPING\r\n") Server.init
      = .ok (Server.mk Store.empty [] (ascii "+PONG\r\n")) ∧
    handleValues Env.plain
        [arrayValue [bulkString (ascii "UNKNOWN")], arrayValue [bulkString (ascii "PING")]]
        Server.init
      = .ok (Server.mk Store.empty [] (ascii "+\r\n+PONG\r\n")) := by
  refine ⟨by decide, by rfl, by rfl, by rfl, by rfl⟩

/-- A reader that still has bytes to deliver hands out the first of them. -/
theorem ReadByte_of_rest (r : Reader) (b : Nat) (t : Bytes) (h : r.rest = b :: t) :
    ∃ r1, r.ReadByte = .ok (b, r1) ∧ r1.rest = t := by
  rcases ReadByte_outcome r with ⟨b1, r1, hb⟩ | hb
  · have hrest := ReadByte_rest r r1 b1 hb
    rw [h] at hrest
    simp only [List.cons.injEq] at hrest
    obtain ⟨rfl, rfl⟩ := hrest
    exact ⟨r1, hb, rfl⟩
  · obtain ⟨buf, src⟩ := r
    cases buf with
    | cons x xs => simp [Reader.ReadByte] at hb
    | nil =>
      cases src with
      | nil => simp [Reader.rest] at h
      | cons y ys => simp [Reader.ReadByte, defaultBufSize] at hb

/-- A reader with nothing left reports `io.EOF`. -/
theorem ReadByte_of_rest_nil (r : Reader) (h : r.rest = []) : r.ReadByte = .err .EOF := by
  rcases ReadByte_outcome r with ⟨b1, r1, hb⟩ | hb
  · have hrest := ReadByte_rest r r1 b1 hb
    rw [h] at hrest
    simp at hrest
  · exact hb

/-- Claim C17 (unknown type prefix). On a stream whose first byte is neither `'*'` nor
`'$'`, `Read` returns the zero `Value` (empty `typ`, no payload) without error and leaves
the stream after that first byte unread. -/
theorem unknown_type_prefix (r : Reader) (b : Nat) (t : Bytes) (hrest : r.rest = b :: t)
    (h1 : b ≠ ARRAY) (h2 : b ≠ BULK) :
    ∃ r1, Read r = .ok (Value.zero, r1) ∧ r1.rest = t ∧
      Value.zero.typ = "" ∧ Value.zero.str = [] ∧ Value.zero.num = 0 ∧
      Value.zero.bulk = [] ∧ Value.zero.array = [] := by
  obtain ⟨r1, hb, ht⟩ := ReadByte_of_rest r b t hrest
  refine ⟨r1, ?_, ht, rfl, rfl, rfl, rfl, rfl⟩
  simp only [Read, ReadFuel, hb, Res.ok_bind, h1, h2, if_false, Res.pure_eq]

/-- Witness of C17: the stream `+OK\r\n` in a fresh reader. -/
theorem unknown_type_prefix_witness :
    ∃ r1, Read (Reader.new (ascii "+OK\r\n")) = .ok (Value.zero, r1) ∧
      r1.rest = ascii "OK\r\n" ∧
      Value.zero.typ = "" ∧ Value.zero.str = [] ∧ Value.zero.num = 0 ∧
      Value.zero.bulk = [] ∧ Value.zero.array = [] :=
  unknown_type_prefix (Reader.new (ascii "+OK\r\n")) 43 (ascii "OK\r\n") (by decide)
    (by decide) (by decide)

/-! ## Replies and the store -/

/-- Claim C20 (the store changes only on an OK reply). For each of the six handlers, on
every argument list and store: when the reply is an Error, a Null, a BulkString or an
Array, the store returned is the store given; and `set` and `hset` with a wrong number
of arguments return the store given. -/
theorem store_changes_only_on_ok (env : Env) (args : List Value) (st : Store) :
    (∀ handler ∈ [ping, set, get, hset, hget, hgetall env], ∀ reply st1,
      handler args st = .ok (reply, st1) →
      (reply.typ = "error" ∨ reply.typ = "null" ∨ reply.typ = "bulk" ∨ reply.typ = "array") →
      st1 = st) ∧
    (args.length ≠ 2 → ∃ reply, set args st = .ok (reply, st) ∧ reply.typ = "error") ∧
    (args.length ≠ 3 → ∃ reply, hset args st = .ok (reply, st) ∧ reply.typ = "error") := by
  refine ⟨?_, ?_, ?_⟩
  · intro handler hmem reply st1 hr ht
    simp only [List.mem_cons, List.mem_singleton, List.not_mem_nil, or_false] at hmem
    rcases hmem with rfl | rfl | rfl | rfl | rfl | rfl
    · exact ping_store args st st1 reply hr
    · rcases args with _ | ⟨a, _ | ⟨b, _ | ⟨c, l⟩⟩⟩ <;> simp [set] at hr
      · exact hr.2.symm
      · exact hr.2.symm
      · obtain ⟨rfl, _⟩ := hr
        simp [Value.typ] at ht
      · exact hr.2.symm
    · exact get_store args st st1 reply hr
    · rcases args with _ | ⟨a, _ | ⟨b, _ | ⟨c, _ | ⟨d, l⟩⟩⟩⟩ <;> simp [hset] at hr
      · exact hr.2.symm
      · exact hr.2.symm
      · exact hr.2.symm
      · obtain ⟨rfl, _⟩ := hr
        simp [Value.typ] at ht
      · exact hr.2.symm
    · exact hget_store args st st1 reply hr
    · exact hgetall_store env args st st1 reply hr
  · intro h
    exact ⟨errorValue (ascii "ERR wrong number of arguments for \x27set\x27 command"),
      by simp [set, h, errorValue], rfl⟩
  · intro h
    exact ⟨errorValue (ascii "ERR wrong number of arguments for \x27hset\x27 command"),
      by simp [hset, h, errorValue], rfl⟩

/-! ## The wire grammar -/

theorem digitChar_toNat (d : Nat) (h : d < 10) : (Nat.digitChar d).toNat = 48 + d := by
  interval_cases d <;> rfl

/-- The digit loop modelled on `strconv` produces the digits that Lean prints. -/
theorem toDigitsCore_formatBits (fuel : Nat) :
    ∀ (n : Nat) (ds : List Char),
      (Nat.toDigitsCore 10 fuel n ds).map Char.toNat = formatBits fuel n (ds.map Char.toNat) := by
  induction fuel with
  | zero =>
    intro n ds
    rfl
  | succ fuel ih =>
    intro n ds
    have hd := digitChar_toNat (n % 10) (Nat.mod_lt n (by decide))
    by_cases hn : n < 10
    · have h0 : n / 10 = 0 := by omega
      have hm : n % 10 = n := by omega
      rw [hm] at hd
      simp only [Nat.toDigitsCore, formatBits, h0, hn, if_true, List.map_cons, hm, hd]
    · have h0 : ¬ (n / 10 = 0) := by omega
      simp only [Nat.toDigitsCore, formatBits, h0, hn, if_false, ih, List.map_cons, hd]

/-- `strconv.Itoa` as modelled writes the decimal notation of its argument. -/
theorem Itoa_eq_decimal (i : Int) : Itoa i = decimal i := by
  cases i with
  | ofNat n =>
    show formatBits (n + 1) n [] = (Nat.toDigits 10 n).map Char.toNat
    rw [Nat.toDigits, toDigitsCore_formatBits]
    rfl
  | negSucc n =>
    show 45 :: formatBits (n + 2) (n + 1) []
      = ("-" ++ toString (n + 1)).toList.map Char.toNat
    have e : ("-" ++ toString (n + 1)).toList = '-' :: Nat.toDigits 10 (n + 1) := rfl
    rw [e, List.map_cons, Nat.toDigits, toDigitsCore_formatBits]
    rfl

theorem marshalElems_eq_flatten (vs : List Value) :
    marshalElems vs = (vs.map Marshal).flatten := by
  induction vs with
  | nil => rfl
  | cons v vs ih => simp [marshalElems, ih]

/-- Claim C12 (Marshal produces the byte-exact wire grammar). For a `Value` of each type
tag, whatever its other fields hold: `+<text>\r\n` for a simple string, `-<text>\r\n` for
an error, `:<decimal>\r\n` for an integer, `$<decimal byte length>\r\n<bytes>\r\n` for a
bulk string, `$-1\r\n` for null, and for an array of `n` elements `*<decimal n>\r\n`
followed by the encodings of the elements in order. -/
theorem Marshal_wire_grammar (str : Bytes) (num : Int) (bulk : Bytes) (array : List Value) :
    Marshal (.mk "string" str num bulk array) = ascii "+" ++ str ++ ascii "\r\n" ∧
    Marshal (.mk "error" str num bulk array) = ascii "-" ++ str ++ ascii "\r\n" ∧
    Marshal (.mk "integer" str num bulk array) = ascii ":" ++ decimal num ++ ascii "\r\n" ∧
    Marshal (.mk "bulk" str num bulk array)
      = ascii "$" ++ decimal bulk.length ++ ascii "\r\n" ++ bulk ++ ascii "\r\n" ∧
    Marshal (.mk "null" str num bulk array) = ascii "$-1\r\n" ∧
    Marshal (.mk "array" str num bulk array)
      = ascii "*" ++ decimal array.length ++ ascii "\r\n" ++ (array.map Marshal).flatten := by
  have h1 : ascii "+" = [STRING] := by decide
  have h2 : ascii "-" = [ERROR] := by decide
  have h3 : ascii ":" = [INTEGER] := by decide
  have h4 : ascii "$" = [BULK] := by decide
  have h5 : ascii "*" = [ARRAY] := by decide
  have h6 : ascii "\r\n" = [CR, LF] := by decide
  have h7 : ascii "$-1\r\n" = [36, 45, 49, 13, 10] := by decide
  rw [h1, h2, h3, h4, h5, h6, h7, ← Itoa_eq_decimal, ← Itoa_eq_decimal, ← Itoa_eq_decimal,
    ← marshalElems_eq_flatten]
  refine ⟨?_, ?_, ?_, ?_, ?_, ?_⟩ <;>
    simp [Marshal, marshalString, marshalError, marshalInteger, marshalBulk, marshalNull,
      Value.str, Value.num, Value.bulk]

/-! ## Lengths that `make` refuses -/

/-- Claim C13 at its failing inputs. On the stream `$-1\r\n`, which is what `Marshal`
writes for Null, and on the stream `*-1\r\n`, `Read` ends in a runtime panic: the length
`-1` is parsed without error and `make` is called with it. -/
theorem Read_negative_length_panics :
    Read (Reader.new (ascii "$-1\r\n")) = .panic ∧
    Read (Reader.new (ascii "*-1\r\n")) = .panic ∧
    Marshal nullValue = ascii "$-1\r\n" ∧
    ParseInt (ascii "-1") = .ok (-1) := by
  refine ⟨by rfl, by rfl, by decide, by decide⟩

/-- Every negative length panics: after the type byte `'$'` or `'*'` and a length line
without `'\r'` that parses to a negative number, `Read` panics. -/
theorem Read_negative_panics (t : Nat) (line : Bytes) (c : Nat) (rest src : Bytes) (i : Int)
    (ht : t = BULK ∨ t = ARRAY) (hcr : CR ∉ line) (hp : ParseInt line = .ok i) (hi : i < 0) :
    Read (Reader.mk (t :: (line ++ CR :: c :: rest)) src) = .panic := by
  have hline := readLine_buffered line c rest src hcr
  rcases ht with rfl | rfl
  · have e1 : ¬ (BULK = ARRAY) := by decide
    simp only [Read, ReadFuel, Reader.ReadByte, Res.ok_bind, e1, if_false, if_true, readBulk,
      readInteger, hline, hp, Res.pure_eq, makeslice_neg 1 i hi, Res.panic_bind]
  · simp only [Read, ReadFuel, Reader.ReadByte, Res.ok_bind, if_true, readArray,
      readInteger, hline, hp, Res.pure_eq, makeslice_neg sizeofValue i hi, Res.panic_bind]

/-- Every length beyond the limit of the allocator panics as well: after the type byte
`'$'` a length above `maxAlloc`, after `'*'` a length that takes the array above it. -/
theorem Read_huge_panics (line : Bytes) (c : Nat) (rest src : Bytes) (i : Int)
    (hcr : CR ∉ line) (hp : ParseInt line = .ok i) :
    ((maxAlloc : Int) < i → Read (Reader.mk (BULK :: (line ++ CR :: c :: rest)) src) = .panic) ∧
    ((maxAlloc : Int) < (sizeofValue : Int) * i →
      Read (Reader.mk (ARRAY :: (line ++ CR :: c :: rest)) src) = .panic) := by
  have hline := readLine_buffered line c rest src hcr
  constructor
  · intro hi
    have hm : makeslice 1 i = .panic := by
      simp only [makeslice, Nat.cast_one, one_mul, hi, or_true, if_true]
    have e1 : ¬ (BULK = ARRAY) := by decide
    simp only [Read, ReadFuel, Reader.ReadByte, Res.ok_bind, e1, if_false, if_true, readBulk,
      readInteger, hline, hp, Res.pure_eq, hm, Res.panic_bind]
  · intro hi
    have hm : makeslice sizeofValue i = .panic := by
      simp only [makeslice, hi, or_true, if_true]
    simp only [Read, ReadFuel, Reader.ReadByte, Res.ok_bind, if_true, readArray,
      readInteger, hline, hp, Res.pure_eq, hm, Res.panic_bind]

/-! ## Round trip with bytes following the value -/

/-- The first `ReadByte` of a fresh reader over `b :: s` fills the buffer with as much of
`s` as fits. -/
theorem ReadByte_new_cons (b : Nat) (s : Bytes) :
    (Reader.new (b :: s)).ReadByte
      = .ok (b, Reader.mk (s.take (defaultBufSize - 1)) (s.drop (defaultBufSize - 1))) := by
  simp [Reader.ReadByte, Reader.new, defaultBufSize]

/-- Round trip when the encoding fits the buffer: for a value of the request grammar whose
encoding is at most `defaultBufSize` bytes long, followed in the stream by any bytes
`rest`, `Read` on a fresh reader returns the value and leaves exactly `rest` unread. -/
theorem Read_Marshal_rest (v : Value) (hv : isRequestValue v = true) (rest : Bytes)
    (hsize : (Marshal v).length ≤ defaultBufSize) :
    ∃ r1, Read (Reader.new (Marshal v ++ rest)) = .ok (v, r1) ∧ r1.rest = rest := by
  have hpos := Marshal_length_pos v hv
  rcases hm : Marshal v with _ | ⟨b, m⟩
  · rw [hm] at hpos
    simp at hpos
  · have hlen : m.length ≤ defaultBufSize - 1 := by
      rw [hm] at hsize
      simp only [List.length_cons] at hsize
      omega
    have htake : (m ++ rest).take (defaultBufSize - 1)
        = m ++ rest.take (defaultBufSize - 1 - m.length) := by
      rw [List.take_append_eq_append_take, List.take_of_length_le hlen]
    have hdrop : (m ++ rest).drop (defaultBufSize - 1)
        = rest.drop (defaultBufSize - 1 - m.length) := by
      rw [List.drop_append_eq_append_drop, List.drop_of_length_le hlen, List.nil_append]
    have hfirst : (Reader.new (b :: (m ++ rest))).ReadByte
        = (Reader.mk (b :: (m ++ rest.take (defaultBufSize - 1 - m.length)))
            (rest.drop (defaultBufSize - 1 - m.length))).ReadByte := by
      rw [ReadByte_new_cons, htake, hdrop]
      rfl
    have hbuf := ReadFuel_Marshal v hv ((Reader.new (Marshal v ++ rest)).rest.length + 1)
      (rest.take (defaultBufSize - 1 - m.length)) (rest.drop (defaultBufSize - 1 - m.length))
      (by simp [Reader.new, Reader.rest]; omega) (by unfold defaultBufSize at hsize; omega)
    refine ⟨Reader.mk (rest.take (defaultBufSize - 1 - m.length))
      (rest.drop (defaultBufSize - 1 - m.length)), ?_, by simp [Reader.rest]⟩
    rw [hm] at hbuf
    rw [← hbuf]
    simp only [Read, ReadFuel, List.cons_append, hfirst]

/-- The same round trip with the state of the reader spelled out: what came into the
buffer along with the encoding stays in the buffer, and the source keeps only what did
not fit into the buffer. -/
theorem Read_Marshal_new (v : Value) (hv : isRequestValue v = true) (rest : Bytes)
    (hsize : (Marshal v).length ≤ defaultBufSize) :
    Read (Reader.new (Marshal v ++ rest))
      = .ok (v, Reader.mk (rest.take (defaultBufSize - (Marshal v).length))
          (rest.drop (defaultBufSize - (Marshal v).length))) := by
  have hpos := Marshal_length_pos v hv
  rcases hm : Marshal v with _ | ⟨b, m⟩
  · rw [hm] at hpos
    simp at hpos
  · have hlen : m.length ≤ defaultBufSize - 1 := by
      rw [hm] at hsize
      simp only [List.length_cons] at hsize
      omega
    have hk : defaultBufSize - (b :: m).length = defaultBufSize - 1 - m.length := by
      simp only [List.length_cons]
      omega
    have htake : (m ++ rest).take (defaultBufSize - 1)
        = m ++ rest.take (defaultBufSize - 1 - m.length) := by
      rw [List.take_append_eq_append_take, List.take_of_length_le hlen]
    have hdrop : (m ++ rest).drop (defaultBufSize - 1)
        = rest.drop (defaultBufSize - 1 - m.length) := by
      rw [List.drop_append_eq_append_drop, List.drop_of_length_le hlen, List.nil_append]
    have hfirst : (Reader.new (b :: (m ++ rest))).ReadByte
        = (Reader.mk (b :: (m ++ rest.take (defaultBufSize - 1 - m.length)))
            (rest.drop (defaultBufSize - 1 - m.length))).ReadByte := by
      rw [ReadByte_new_cons, htake, hdrop]
      rfl
    have hbuf := ReadFuel_Marshal v hv ((Reader.new (Marshal v ++ rest)).rest.length + 1)
      (rest.take (defaultBufSize - 1 - m.length)) (rest.drop (defaultBufSize - 1 - m.length))
      (by simp [Reader.new, Reader.rest]; omega) (by unfold defaultBufSize at hsize; omega)
    rw [hm] at hbuf
    rw [hk, ← hbuf]
    simp only [Read, ReadFuel, List.cons_append, hfirst]

/-- What reaches the server together with an unknown command is lost: when a request of
the request grammar with an unknown command name and the bytes `next` sent after it are
at most `defaultBufSize` bytes, the handler writes `+\r\n` for the request and ends
without another turn on `next`. -/
theorem handleConnection_drops_buffered (env : Env) (val first : Value) (args : List Value)
    (next : Bytes) (s : Server) (hv : isRequestValue val = true) (htyp : val.typ = "array")
    (harr : val.array = first :: args)
    (hcmd : ToUpper env first.bulk ∉ [ascii "PING", ascii "SET", ascii "GET", ascii "HSET",
      ascii "HGET", ascii "HGETALL"])
    (hsize : (Marshal val ++ next).length ≤ defaultBufSize) :
    handleConnection env (Marshal val ++ next) s
      = .ok (Server.mk s.store s.aof (s.out ++ ascii "+\r\n")) := by
  rw [List.length_append] at hsize
  have hread := Read_Marshal_new val hv next (by omega)
  rw [handleConnection_unknown env _ s val first args _ hread htyp harr hcmd]
  have hnil : next.drop (defaultBufSize - (Marshal val).length) = [] :=
    List.drop_of_length_le (by omega)
  simp only [hnil]
  rfl

/-- Claim C19 at its failing input. For the value `SET a v`, `v` of 4090 bytes `x`,
followed by no further bytes, `Read` on the encoding succeeds and consumes all of it,
but the value returned has the last 21 bytes of `v` replaced by zero bytes. -/
theorem round_trip_truncates_large_bulk :
    isRequestValue bigSet = true ∧
    Read (Reader.new (Marshal bigSet ++ []))
      = .ok (arrayValue [bulkString (ascii "SET"), bulkString (ascii "a"),
          bulkString (List.replicate 4069 120 ++ List.replicate 21 0)], Reader.mk [] []) ∧
    arrayValue [bulkString (ascii "SET"), bulkString (ascii "a"),
        bulkString (List.replicate 4069 120 ++ List.replicate 21 0)] ≠ bigSet := by
  have e : List.replicate 4090 120
      = 120 :: List.replicate 4068 120 ++ List.replicate 21 120 := by
    rw [← List.replicate_succ, List.append_replicate_replicate]
  have e2 : List.replicate 4069 120 = 120 :: List.replicate 4068 120 :=
    List.replicate_succ 120 4068
  refine ⟨?_, ?_, ?_⟩
  · rfl
  · rw [List.append_nil, bigSet, e, e2]
    exact Read_set_4090 120 (List.replicate 4068 120) (List.replicate 21 120)
      (List.length_replicate _ _) (List.length_replicate _ _)
      (fun h => absurd (List.eq_of_mem_replicate h) (by decide))
  · intro h
    simp only [bigSet, arrayValue, bulkString, Value.mk.injEq, List.cons.injEq, and_true,
      true_and] at h
    have h0 : (0 : Nat) ∈ List.replicate 4069 120 ++ List.replicate 21 0 :=
      List.mem_append_right _ (List.mem_replicate.mpr ⟨by decide, rfl⟩)
    rw [h] at h0
    exact absurd (List.eq_of_mem_replicate h0) (by decide)

/-! ## What `readLine` consumes -/

/-- A reader whose source is exhausted stays so after `ReadByte`. -/
theorem ReadByte_src_nil (r r1 : Reader) (b : Nat) (h : r.ReadByte = .ok (b, r1))
    (hsrc : r.src = []) : r1.src = [] := by
  obtain ⟨buf, src⟩ := r
  simp only at hsrc
  subst hsrc
  cases buf with
  | cons x xs =>
    simp only [Reader.ReadByte, Res.ok.injEq, Prod.mk.injEq] at h
    rw [← h.2]
  | nil => simp [Reader.ReadByte] at h

/-- What the loop of `readLine` has consumed when it returns: with `line` the bytes read
before, none of them `'\r'` except perhaps the last, the bytes read in all are the line
returned, a `'\r'` and one more byte. -/
theorem readLineLoop_inv (fuel : Nat) :
    ∀ (r : Reader) (line : Bytes) (size : Nat) (l : Bytes) (sz : Nat) (r1 : Reader),
      CR ∉ line.dropLast → readLineLoop fuel r line size = .ok (l, sz, r1) →
      (∃ c, line ++ r.rest = l ++ CR :: c :: r1.rest) ∧ CR ∉ l ∧
        sz + line.length = size + l.length + 2 ∧ (r.src = [] → r1.src = []) := by
  induction fuel with
  | zero =>
    intro r line size l sz r1 _ h
    simp [readLineLoop] at h
  | succ fuel ih =>
    intro r line size l sz r1 hline h
    rw [readLineLoop] at h
    rcases ReadByte_outcome r with ⟨b, r2, hb⟩ | hb
    · have hrest := ReadByte_rest r r2 b hb
      have hsrc := ReadByte_src_nil r r2 b hb
      simp only [hb, cr_check] at h
      by_cases hlast : line.getLast? = some CR
      · obtain ⟨init, rfl⟩ := List.getLast?_eq_some_iff.mp hlast
        simp only [hlast, if_true, Res.ok.injEq, Prod.mk.injEq] at h
        obtain ⟨rfl, rfl, rfl⟩ := h
        have e : (init ++ [CR] ++ [b]).take ((init ++ [CR] ++ [b]).length - 2) = init := by
          have e1 : (init ++ [CR] ++ [b]).length - 2 = init.length := by simp
          rw [e1, List.append_assoc, List.take_left]
        rw [e]
        simp only [List.dropLast_concat] at hline
        refine ⟨⟨b, by simp [hrest]⟩, hline, by simp; omega, hsrc⟩
      · simp only [hlast, if_false] at h
        have hfree : CR ∉ line := by
          rcases List.eq_nil_or_concat line with rfl | ⟨init, x, rfl⟩
          · simp
          · simp only [List.concat_eq_append, List.dropLast_concat] at hline
            simp only [List.concat_eq_append, List.getLast?_concat, Option.some.injEq] at hlast
            simp only [List.concat_eq_append, List.mem_append, List.mem_singleton, not_or]
            exact ⟨hline, fun e => hlast e.symm⟩
        obtain ⟨⟨c, hc⟩, hl, hsz, hs⟩ := ih r2 (line ++ [b]) (size + 1) l sz r1
          (by simpa using hfree) h
        refine ⟨⟨c, by rw [hrest, ← hc]; simp⟩, hl, ?_, fun h0 => hs (hsrc h0)⟩
        simp only [List.length_append, List.length_singleton] at hsz
        omega
    · simp [hb] at h

/-- When `readLine` succeeds, the bytes it consumed are the line returned, which holds
no `'\r'`, then a `'\r'` and one more byte, and the size reported is the number of
bytes consumed. -/
theorem readLine_inv (r r1 : Reader) (l : Bytes) (sz : Nat)
    (h : readLine r = .ok (l, sz, r1)) :
    (∃ c, r.rest = l ++ CR :: c :: r1.rest) ∧ CR ∉ l ∧ sz = l.length + 2 ∧
      (r.src = [] → r1.src = []) := by
  obtain ⟨hc, hl, hsz, hs⟩ := readLineLoop_inv _ r [] 0 l sz r1 (by simp) h
  refine ⟨by simpa using hc, hl, by simpa using hsz, hs⟩

theorem readLineLoop_of_rest (l : Bytes) (c : Nat) (t : Bytes) (hl : CR ∉ l) :
    ∀ (fuel : Nat) (r : Reader) (line : Bytes) (size : Nat),
      r.rest = l ++ CR :: c :: t → l.length + 2 ≤ fuel → line.getLast? ≠ some CR →
      ∃ r1, readLineLoop fuel r line size = .ok (line ++ l, size + l.length + 2, r1) ∧
        r1.rest = t := by
  induction l with
  | nil =>
    intro fuel r line size hr hf hlast
    obtain ⟨f, rfl⟩ : ∃ f, fuel = f + 2 := ⟨fuel - 2, by omega⟩
    obtain ⟨r1, hb1, hr1⟩ := ReadByte_of_rest r CR (c :: t) (by simpa using hr)
    obtain ⟨r2, hb2, hr2⟩ := ReadByte_of_rest r1 c t hr1
    have h2 : (line ++ [CR]).getLast? = some CR := by simp
    refine ⟨r2, ?_, hr2⟩
    simp only [readLineLoop, hb1, hb2, cr_check, hlast, if_false, h2, if_true]
    simp
  | cons x l ih =>
    intro fuel r line size hr hf hlast
    obtain ⟨f, rfl⟩ : ∃ f, fuel = f + 1 := ⟨fuel - 1, by omega⟩
    have hx : x ≠ CR := fun e => hl (by simp [e])
    have hl2 : CR ∉ l := fun e => hl (by simp [e])
    obtain ⟨r1, hb1, hr1⟩ := ReadByte_of_rest r x (l ++ CR :: c :: t) (by simpa using hr)
    have h2 : (line ++ [x]).getLast? ≠ some CR := by simp [hx]
    obtain ⟨r2, hloop, hr2⟩ := ih hl2 f r1 (line ++ [x]) (size + 1) hr1
      (by simp only [List.length_cons] at hf; omega) h2
    refine ⟨r2, ?_, hr2⟩
    simp only [readLineLoop, hb1, cr_check, hlast, if_false, hloop]
    have e : size + 1 + l.length + 2 = size + (l.length + 1) + 2 := by omega
    simp [e]

/-- On a stream that begins with a line `l` free of `'\r'`, then `'\r'` and one more
byte, `readLine` returns `l` and leaves what follows that byte. -/
theorem readLine_of_rest (r : Reader) (l : Bytes) (c : Nat) (t : Bytes)
    (hr : r.rest = l ++ CR :: c :: t) (hl : CR ∉ l) :
    ∃ r1, readLine r = .ok (l, l.length + 2, r1) ∧ r1.rest = t := by
  obtain ⟨r1, h, hr1⟩ := readLineLoop_of_rest l c t hl (r.rest.length + 1) r [] 0 hr
    (by simp [hr]) (by simp)
  exact ⟨r1, by simpa [readLine] using h, hr1⟩

/-- Claim C18 at its failing inputs. On the stream `a\rb` the call `readLine` succeeds
with the line `a` and size 3: the bytes consumed after the line are `\r` and `b`, not
CR LF. On the stream `ab\rc\r\nd` it returns `ab` and leaves `\r\nd`, while the content
of the stream up to its first CRLF is `ab\rc`. -/
theorem readLine_stops_after_bare_CR :
    readLine (Reader.new (ascii "a\rb")) = .ok (ascii "a", 3, Reader.mk [] []) ∧
    readLine (Reader.new (ascii "ab\rc\r\nd"))
      = .ok (ascii "ab", 4, Reader.mk (ascii "\r\nd") []) ∧
    ascii "a\rb" ≠ ascii "a" ++ [CR, LF] ∧
    ascii "ab\rc\r\nd" = ascii "ab\rc" ++ [CR, LF] ++ ascii "d" := by
  refine ⟨by decide, by decide, by decide, by decide⟩

/-! ## Length lines that are not integers -/

/-- A length line without `'\r'` that is not a base-10 integer makes `Read` fail with the
error of `strconv.ParseInt`, after the type byte `'$'` as after `'*'`. -/
theorem Read_bad_length (r : Reader) (t : Nat) (line : Bytes) (c : Nat) (rest : Bytes)
    (e : Err) (hr : r.rest = t :: (line ++ CR :: c :: rest)) (ht : t = BULK ∨ t = ARRAY)
    (hcr : CR ∉ line) (hp : ParseInt line = .err e) :
    Read r = .err e := by
  obtain ⟨r1, hb, hr1⟩ := ReadByte_of_rest r t _ hr
  obtain ⟨r2, hline, _⟩ := readLine_of_rest r1 line c rest hr1 hcr
  rcases ht with rfl | rfl
  · have e1 : ¬ (BULK = ARRAY) := by decide
    simp only [Read, ReadFuel, hb, Res.ok_bind, e1, if_false, if_true, readBulk, readInteger,
      hline, hp, Res.err_bind]
  · simp only [Read, ReadFuel, hb, Res.ok_bind, if_true, readArray, readInteger, hline, hp,
      Res.err_bind]

/-- Claim C14 at its failing input. The stream `$3\rZ\r\nabc\r\n` starts with `$` and the
line `3\rZ`, ended by CRLF, which `ParseInt` rejects; `Read` takes the line to end after
`\rZ`, parses `3`, and returns the bulk string `\r\na` without error. -/
theorem Read_accepts_bad_length_line :
    ascii "$3\rZ\r\nabc\r\n" = BULK :: (ascii "3\rZ" ++ [CR, LF] ++ ascii "abc\r\n") ∧
    ParseInt (ascii "3\rZ") = .err .ErrSyntax ∧
    Read (Reader.new (ascii "$3\rZ\r\nabc\r\n"))
      = .ok (bulkString (ascii "\r\na"), Reader.mk [] []) := by
  refine ⟨by decide, by decide, by rfl⟩

/-! ## Framing of bulk strings -/

/-- What `Read(p)` did when everything left is in the buffer: either the buffer held the
bytes asked for, or it is empty afterwards. -/
theorem Reader_Read_inv (t : Bytes) (n : Nat) (p : Bytes) (r2 : Reader)
    (h : (Reader.mk t []).Read n = .ok (p, r2)) :
    r2.src = [] ∧ ((n ≤ t.length ∧ p = t.take n ∧ r2.buf = t.drop n) ∨ r2.buf = []) := by
  by_cases h0 : n = 0
  · subst h0
    simp only [Reader.Read, if_true, Res.ok.injEq, Prod.mk.injEq] at h
    obtain ⟨rfl, rfl⟩ := h
    exact ⟨rfl, Or.inl ⟨Nat.zero_le _, rfl, rfl⟩⟩
  · cases t with
    | nil => simp [Reader.Read, h0] at h
    | cons x xs =>
      simp only [Reader.Read, h0, if_false, Res.ok.injEq, Prod.mk.injEq] at h
      obtain ⟨rfl, rfl⟩ := h
      refine ⟨rfl, ?_⟩
      by_cases hn : n ≤ (x :: xs).length
      · refine Or.inl ⟨hn, ?_, rfl⟩
        have : n - ((x :: xs).take n).length = 0 := by
          rw [List.length_take]
          omega
        rw [this]
        simp
      · exact Or.inr (List.drop_of_length_le (by omega))

theorem Marshal_cut_4100 (x : Nat) (p1 q : Bytes) (h1 : p1.length = 4088)
    (hq : q.length = 9) :
    Marshal (bulkString (x :: p1 ++ ([13, 10] ++ q)))
      = (ascii "$4100\r\n" ++ (x :: p1 ++ [13, 10])) ++ (q ++ [CR, LF]) := by
  have i4100 : Itoa (4100 : Int) = [52, 49, 48, 48] := by decide
  have a1 : ascii "$4100\r\n" = [36, 52, 49, 48, 48, 13, 10] := by decide
  rw [a1]
  simp [bulkString, Marshal, marshalBulk, Value.bulk, i4100, BULK, CR, LF, h1, hq]

theorem Read_cut_4100 (x : Nat) (p1 : Bytes) (h1 : p1.length = 4088) :
    Read (Reader.new (ascii "$4100\r\n" ++ (x :: p1 ++ [13, 10])))
      = .ok (bulkString (x :: p1 ++ List.replicate 11 0), Reader.mk [] []) := by
  have a1 : ascii "$4100\r\n" = BULK :: (Itoa ((4100 : Nat) : Int) ++ [CR, LF]) := by decide
  have ilen : (Itoa ((4100 : Nat) : Int)).length = 4 := by decide
  have hstream : ascii "$4100\r\n" ++ (x :: p1 ++ [13, 10])
      = BULK :: ((Itoa ((4100 : Nat) : Int) ++ CR :: LF :: x :: p1) ++ ([] ++ CR :: LF :: [])) := by
    rw [a1]
    simp [CR, LF]
  have hfill := ReadByte_new_split BULK (Itoa ((4100 : Nat) : Int) ++ CR :: LF :: x :: p1)
    ([] ++ CR :: LF :: []) (by
      simp only [List.length_append, List.length_cons, ilen, h1, defaultBufSize])
  have hs := readBulk_short 4100 x p1 [] LF [] (by decide) (by omega) (by simp)
    (by simp [defaultBufSize])
  simp only [h1] at hs
  have e1 : ¬ (BULK = ARRAY) := by decide
  rw [hstream]
  simp only [Read, ReadFuel, hfill, Res.ok_bind, e1, if_false, if_true, hs]

/-- Claim C15 at its failing input. The stream `cutStream` is a proper beginning of the
encoding of the bulk string `cutPayload`: the last eleven bytes are missing. `Read` on a
stream that holds exactly `cutStream` returns a bulk string without error: the first
4089 bytes of the payload followed by eleven zero bytes. -/
theorem Read_succeeds_on_cut_stream :
    isRequestValue (bulkString cutPayload) = true ∧
    Marshal (bulkString cutPayload) = cutStream ++ (List.replicate 9 120 ++ [CR, LF]) ∧
    List.replicate 9 120 ++ [CR, LF] ≠ [] ∧
    Read (Reader.new cutStream)
      = .ok (bulkString (List.replicate 4089 120 ++ List.replicate 11 0), Reader.mk [] []) := by
  have e2 : List.replicate 4089 120 = 120 :: List.replicate 4088 120 :=
    List.replicate_succ 120 4088
  refine ⟨by rfl, ?_, by simp, ?_⟩
  · rw [cutPayload, cutStream, e2]
    exact Marshal_cut_4100 120 (List.replicate 4088 120) (List.replicate 9 120)
      (List.length_replicate _ _) (List.length_replicate _ _)
  · rw [cutStream, e2]
    exact Read_cut_4100 120 (List.replicate 4088 120) (List.length_replicate _ _)

/-! ## Streams that end inside a value that fits the buffer -/

/-- With no `'\r'` before the last byte left, `readLine` runs into the end of input. -/
theorem readLine_eof (r : Reader) (h : CR ∉ r.rest.dropLast) : readLine r = .err .EOF := by
  rcases readLine_total r with he | ⟨l, sz, r1, he, _⟩
  · exact he
  · obtain ⟨⟨c, hc⟩, _, _, _⟩ := readLine_inv r r1 l sz he
    rw [hc, List.dropLast_append_cons] at h
    exact absurd (by simp [List.dropLast]) h

/-- A proper beginning of `d ++ [CR, LF]`, for `d` free of `'\r'`, has no `'\r'` before
its last byte. -/
theorem cut_line_no_CR (d p q : Bytes) (hd : CR ∉ d) (hq : q ≠ [])
    (h : p ++ q = d ++ [CR, LF]) : CR ∉ p.dropLast := by
  rcases List.eq_nil_or_concat q with rfl | ⟨q1, z, rfl⟩
  · exact absurd rfl hq
  · simp only [List.concat_eq_append] at h
    have h1 : (p ++ q1) ++ [z] = (d ++ [CR]) ++ [LF] := by simpa using h
    obtain ⟨h2, _⟩ := List.append_inj' h1 rfl
    rcases List.eq_nil_or_concat q1 with rfl | ⟨q2, y, rfl⟩
    · simp only [List.append_nil] at h2
      rw [h2, List.dropLast_concat]
      exact hd
    · simp only [List.concat_eq_append] at h2
      have h3 : (p ++ q2) ++ [y] = d ++ [CR] := by simpa using h2
      obtain ⟨h4, _⟩ := List.append_inj' h3 rfl
      intro hmem
      have : CR ∈ d := by
        rw [← h4]
        exact List.mem_append_left _ (List.mem_of_mem_dropLast hmem)
      exact hd this

/-- Reading the length line of a value from a stream that is cut somewhere: either the
stream ends inside the line and `readInteger` reports the end of input, or the line is
whole and `readInteger` returns the length. -/
theorem readInteger_cut (n : Nat) (hn : n < 9223372036854775808) (body p q : Bytes)
    (h : p ++ q = Itoa (n : Int) ++ CR :: LF :: body) :
    readInteger (Reader.mk p []) = .err .EOF ∨
    ∃ a, body = a ++ q ∧
      readInteger (Reader.mk p []) = .ok ((n : Int), (Itoa (n : Int)).length + 2,
        Reader.mk a []) := by
  have hcr : CR ∉ Itoa (n : Int) := by
    intro hmem
    have := (Itoa_nat_digits n).2 CR hmem
    simp [CR] at this
  have h1 : p ++ q = (Itoa (n : Int) ++ [CR, LF]) ++ body := by simpa using h
  rcases List.append_eq_append_iff.mp h1 with ⟨a, ha, hb⟩ | ⟨c, hc, hbody⟩
  · by_cases ha0 : a = []
    · subst ha0
      simp only [List.append_nil, List.nil_append] at ha hb
      refine Or.inr ⟨[], by simp [hb], ?_⟩
      rw [← ha]
      have := readInteger_buffered n hn LF [] []
      simpa using this
    · refine Or.inl ?_
      have hfree := cut_line_no_CR (Itoa (n : Int)) p a hcr ha0 ha.symm
      have hl : readLine (Reader.mk p []) = .err .EOF :=
        readLine_eof _ (by simpa [Reader.rest] using hfree)
      simp [readInteger, hl]
  · refine Or.inr ⟨c, hbody, ?_⟩
    rw [hc]
    have := readInteger_buffered n hn LF c []
    simpa using this

/-- Reading the payload and the line end of a bulk string from a stream that is cut
somewhere in them: the end of input is reported, by `Read` or by `readLine`. -/
theorem payload_cut (b a q : Bytes) (hq : q ≠ []) (h : a ++ q = b ++ [CR, LF]) :
    (Reader.mk a []).Read b.length = .err .EOF ∨
    ∃ p r2, (Reader.mk a []).Read b.length = .ok (p, r2) ∧ readLine r2 = .err .EOF := by
  rcases List.append_eq_append_iff.mp h with ⟨a1, ha, hb⟩ | ⟨c, hc, hcq⟩
  · by_cases h0 : a1 = []
    · subst h0
      simp only [List.append_nil] at ha
      rw [ha]
      refine Or.inr ⟨a, Reader.mk [] [], ?_, readLine_eof _ (by simp [Reader.rest])⟩
      have := Read_buffered a [] []
      simpa using this
    · have hlt : a.length < b.length := by
        rw [ha, List.length_append]
        have : 0 < a1.length := List.length_pos.mpr h0
        omega
      rcases Reader_Read_total (Reader.mk a []) b.length with he | ⟨p, r2, hr, _⟩
      · exact Or.inl he
      · obtain ⟨hsrc, hcase⟩ := Reader_Read_inv a b.length p r2 hr
        rcases hcase with ⟨hle, _, _⟩ | hnil
        · omega
        · exact Or.inr ⟨p, r2, hr, readLine_eof _ (by simp [Reader.rest, hsrc, hnil])⟩
  · have hfree := cut_line_no_CR [] c q (by simp) hq (by simpa using hcq.symm)
    refine Or.inr ⟨b, Reader.mk c [], ?_, readLine_eof _ (by simpa [Reader.rest] using hfree)⟩
    rw [hc]
    exact Read_buffered b c []

mutual
/-- A stream that holds a proper beginning of the encoding of a value, all of it in the
buffer, makes `ReadFuel` report the end of input. -/
theorem ReadFuel_cut : ∀ (v : Value), isRequestValue v = true →
    ∀ (fuel : Nat) (p q : Bytes), Marshal v = p ++ q → q ≠ [] → p.length < fuel →
      (Marshal v).length ≤ 3518437208883 →
      ReadFuel fuel (Reader.mk p []) = .err .EOF
  | .mk typ str num bulk array, hv, fuel, p, q, hpq, hq, hf, hb => by
    obtain ⟨f, rfl⟩ : ∃ f, fuel = f + 1 := ⟨fuel - 1, by omega⟩
    cases p with
    | nil => simp [ReadFuel, Reader.ReadByte]
    | cons x p1 =>
      unfold isRequestValue at hv
      unfold Marshal at hpq hb
      split at hv
      · rename_i ht
        subst ht
        simp only [String.reduceEq, if_false, if_true, marshalBulk, Value.bulk,
          List.length_append, List.length_cons, List.length_nil, List.cons_append,
          List.nil_append, List.append_assoc, List.cons.injEq] at hpq hb
        obtain ⟨rfl, hrest⟩ := hpq
        have e1 : ¬ (BULK = ARRAY) := by decide
        simp only [ReadFuel, Reader.ReadByte, Res.ok_bind, e1, if_false, if_true, readBulk]
        rcases readInteger_cut bulk.length (by omega) (bulk ++ [CR, LF]) p1 q hrest.symm with
          he | ⟨a, ha, hi⟩
        · simp [he]
        · have hmake := makeslice_natCast 1 bulk.length (by simp only [maxAlloc]; omega)
          simp only [hi, Res.ok_bind, hmake]
          rcases payload_cut bulk a q hq ha.symm with he | ⟨pl, r2, hr, hl⟩
          · simp [he]
          · simp [hr, hl]
      · split at hv
        · rename_i ht
          subst ht
          simp only [Bool.and_eq_true, decide_eq_true_eq] at hv
          obtain ⟨_, hvs⟩ := hv
          simp only [if_true, List.length_append, List.length_cons, List.length_nil,
            List.cons_append, List.nil_append, List.append_assoc, List.cons.injEq] at hpq hb
          obtain ⟨rfl, hrest⟩ := hpq
          have hlen := length_le_marshalElems array hvs
          simp only [ReadFuel, Reader.ReadByte, Res.ok_bind, if_true, readArray]
          rcases readInteger_cut array.length (by omega) (marshalElems array) p1 q
            hrest.symm with he | ⟨a, ha, hi⟩
          · simp [he]
          · have hmake := makeslice_natCast sizeofValue array.length (by
              simp only [sizeofValue, maxAlloc]; omega)
            have hal : a.length < f := by
              have := congrArg List.length hrest
              simp only [List.length_append, List.length_cons, ha] at this
              simp only [List.length_cons] at hf
              omega
            have hloop := readArrayLoop_cut array hvs f a q ha hq hal (by omega)
            simp only [hi, Res.ok_bind, hmake, hloop, Res.err_bind]
        · exact absurd hv (by simp)
/-- The element loop on a stream that ends inside the elements reports the end of input. -/
theorem readArrayLoop_cut : ∀ (vs : List Value), areRequestValues vs = true →
    ∀ (fuel : Nat) (p q : Bytes), marshalElems vs = p ++ q → q ≠ [] → p.length < fuel →
      (marshalElems vs).length ≤ 3518437208883 →
      readArrayLoop (ReadFuel fuel) vs.length (Reader.mk p []) = .err .EOF
  | [], _, fuel, p, q, hpq, hq, _, _ => by
    simp only [marshalElems] at hpq
    have := List.append_eq_nil.mp hpq.symm
    exact absurd this.2 hq
  | v :: vs, hv, fuel, p, q, hpq, hq, hf, hb => by
    simp only [areRequestValues, Bool.and_eq_true] at hv
    simp only [marshalElems, List.length_append] at hpq hb
    rcases List.append_eq_append_iff.mp hpq with ⟨a, ha, hrest⟩ | ⟨c, hc, hqc⟩
    · have hlen : (Marshal v).length + a.length = p.length := by
        rw [ha, List.length_append]
      have h1 := ReadFuel_Marshal v hv.1 fuel a [] (by omega) (by omega)
      have h2 := readArrayLoop_cut vs hv.2 fuel a q hrest hq (by omega) (by omega)
      rw [ha]
      simp only [readArrayLoop, List.length_cons, h1, Res.ok_bind, h2, Res.err_bind]
    · by_cases hc0 : c = []
      · subst hc0
        simp only [List.append_nil, List.nil_append] at hc hqc
        have h1 := ReadFuel_Marshal v hv.1 fuel [] [] (by rw [hc]; omega) (by omega)
        have h2 := readArrayLoop_cut vs hv.2 fuel [] q (by simpa using hqc.symm) hq
          (by simp; omega) (by omega)
        rw [List.append_nil, hc] at h1
        simp only [readArrayLoop, List.length_cons, h1, Res.ok_bind, h2, Res.err_bind]
      · have h1 := ReadFuel_cut v hv.1 fuel p c hc hc0 hf (by omega)
        simp only [readArrayLoop, List.length_cons, h1, Res.err_bind]
end

/-- Incomplete input is an error when the value fits the buffer: for a value of the
request grammar whose encoding is at most `defaultBufSize` bytes long, `Read` on a stream
that holds exactly a proper beginning of the encoding fails with `io.EOF`. -/
theorem Read_cut_small (v : Value) (hv : isRequestValue v = true) (p q : Bytes)
    (h : Marshal v = p ++ q) (hq : q ≠ []) (hsize : (Marshal v).length ≤ defaultBufSize) :
    Read (Reader.new p) = .err .EOF := by
  have hp : p.length ≤ defaultBufSize := by
    rw [h, List.length_append] at hsize
    omega
  rw [Read_new p hp]
  exact ReadFuel_cut v hv _ p q h hq (by simp [Reader.rest])
    (by unfold defaultBufSize at hsize; omega)

end Godis
